import Mathlib

/-!
Verification of the linter core of this repository against its specification.

The development shallowly embeds the JavaScript sources:

* `lib/linter/linter.js` (severity resolution, `createLintingProblem`,
  the rule-registration part of `runRules`, `ruleContext.report` validation,
  parser resolution in `#verifyWithoutProcessors`, and the
  `verifyAndFix` autofix loop);
* `lib/shared/traverser.js` (the AST `Traverser` with `skip`/`break`);
* `lib/source-code/token-store/cursors.js` together with the token cursors
  (forward/backward base cursors and the Filter/Skip/Limit decorators).

JavaScript values that matter to the embedded code paths are modelled by
small inductive types (`ConfigJson` for rule-severity configuration values,
`Option` for possibly-`undefined` fields).  External collaborators that the
claims quantify over (the parser, the rule listeners, the text patcher
`SourceCodeFixer.applyFixes`) are taken as function parameters, constrained
only where the specification pins down their contract.
-/

namespace ESLint

/-! ## Data model: problems and edits (spec §3) -/

/-- An atomic text replacement proposed by a rule (`range` is a half-open
character-offset interval, `text` the replacement). -/
structure Edit where
  rangeStart : Int
  rangeEnd : Int
  text : String
deriving DecidableEq, Repr

/-- A diagnostic record as produced by the linter.  Fields that JavaScript
leaves `undefined` on some problems (`fatal`, `fix`, `suggestions`,
`ruleId`, `nodeType`) are modelled with `Bool`/`Option` defaults matching
JavaScript truthiness. -/
structure Problem where
  ruleId : Option String := none
  message : String := ""
  line : Int := 0
  column : Int := 0
  endLine : Int := 0
  endColumn : Int := 0
  severity : Nat := 2
  nodeType : Option String := none
  fatal : Bool := false
  fix : Option Edit := none
  suggestions : Option (List Edit) := none
deriving DecidableEq, Repr

/-! ## Severity resolution (`getRuleSeverity`, linter.js lines 119-137) -/

/-- A JavaScript value as far as rule-severity configuration is concerned:
numbers, strings, booleans, `null`, `undefined`, arrays, other objects. -/
inductive ConfigJson where
  | num (n : Int)
  | str (s : String)
  | bool (b : Bool)
  | null
  | undef
  | arr (xs : List ConfigJson)
  | obj

/-- `String.prototype.toLowerCase` (ASCII case folding, which is all the
severity strings exercise).  Implemented directly over the character list
so it reduces inside the kernel. -/
def jsToLower (s : String) : String := ⟨s.data.map Char.toLower⟩

/-- What `getRuleSeverity` can actually return.  `RULE_SEVERITY` is built
by `reduce` onto a plain `{}`, so a property read that misses the own
entries `off`/`warn`/`error` continues up the prototype chain to
`Object.prototype`.  Its only members whose names are entirely lower-case
are `constructor` (the function `Object`) and `__proto__` (the
`Object.prototype` object itself); both are truthy, so `|| 0` passes them
through and the function returns a non-numeric value. -/
inductive JsSeverity where
  | num (n : Nat)
  | objectCtor
  | objectProto
deriving DecidableEq, Repr

/-- `RULE_SEVERITY[key] || 0`: the own entries first, then the prototype
chain (every other `Object.prototype` member name, e.g. `toString` or
`hasOwnProperty`, contains an upper-case letter, so a `toLowerCase()`-ed
key can never reach it), then `undefined || 0`.  The own entry `off` holds
`0`, which is falsy, so `0 || 0` is still `0`. -/
def ruleSeverityLookupOr0 (key : String) : JsSeverity :=
  if key = "off" then .num 0
  else if key = "warn" then .num 1
  else if key = "error" then .num 2
  else if key = "constructor" then .objectCtor
  else if key = "__proto__" then .objectProto
  else .num 0

/-- The body of `getRuleSeverity` applied to the already-extracted
`severityValue`: the `=== 0|1|2` checks, then the case-insensitive
string lookup in `RULE_SEVERITY` (including its prototype chain) under
`|| 0`, then the final `return 0`. -/
def severityFromValue : ConfigJson → JsSeverity
  | .num n => if n = 0 ∨ n = 1 ∨ n = 2 then .num n.toNat else .num 0
  | .str s => ruleSeverityLookupOr0 (jsToLower s)
  | _ => .num 0

/-- The `severityValue` extraction of `getRuleSeverity`: `ruleConfig[0]`
when the config is an array (`undefined` when the array is empty),
otherwise the config itself. -/
def severityValueOf : ConfigJson → ConfigJson
  | .arr xs => xs.headD .undef
  | v => v

/-- `getRuleSeverity(ruleConfig)`. -/
def getRuleSeverity (ruleConfig : ConfigJson) : JsSeverity :=
  severityFromValue (severityValueOf ruleConfig)

/-- A string that lower-cases to one of the two all-lower-case
`Object.prototype` member names — the inputs on which the `RULE_SEVERITY`
lookup escapes the own entries into the prototype chain. -/
def isProtoKeyString : ConfigJson → Bool
  | .str s => jsToLower s == "constructor" || jsToLower s == "__proto__"
  | _ => false

/-- Follows the WORDS of the spec/claim, not the code: a value is a
severity encoding when it equals `0`, `1`, `2` or a case-insensitive match
of `"off"`/`"warn"`/`"error"`. -/
def specIsSeverityLiteral : ConfigJson → Bool
  | .num n => n == 0 || n == 1 || n == 2
  | .str s => jsToLower s == "off" || jsToLower s == "warn" || jsToLower s == "error"
  | _ => false

/-- Follows the WORDS of the spec/claim: a severity encoding is a severity
literal, directly or as the first element of an array. -/
def specIsSeverityEncoding : ConfigJson → Bool
  | .arr (x :: _) => specIsSeverityLiteral x
  | .arr [] => false
  | v => specIsSeverityLiteral v

/-! ## `createLintingProblem` (linter.js lines 234-252) -/

/-- A `line`/`column` position, as in parser `loc` objects. -/
structure Position where
  line : Int
  column : Int
deriving DecidableEq, Repr

/-- A `{ start, end }` source location (`end` is a Lean keyword, so the
field is called `stop`). -/
structure SourceSpan where
  start : Position
  stop : Position
deriving DecidableEq, Repr

/-- `DEFAULT_ERROR_LOC = { start: { line: 1, column: 0 }, end: { line: 1, column: 1 } }`. -/
def DEFAULT_ERROR_LOC : SourceSpan := ⟨⟨1, 0⟩, ⟨1, 1⟩⟩

/-- The options object accepted by `createLintingProblem`; absent fields
are `none` (JavaScript `undefined`, filled by destructuring defaults). -/
structure LintProblemInit where
  ruleId : Option String := none
  loc : Option SourceSpan := none
  message : Option String := none
  severity : Option Nat := none

/-- `createLintingProblem(options)`: destructuring defaults
(`ruleId = null`, `loc = DEFAULT_ERROR_LOC`, `severity = 2`, and the
default message interpolating `options.ruleId`), then the record with
1-based columns.  The returned object carries no `fatal`/`fix`/
`suggestions` fields (JavaScript `undefined`). -/
def createLintingProblem (options : LintProblemInit) : Problem :=
  let ruleId := options.ruleId
  let loc := options.loc.getD DEFAULT_ERROR_LOC
  let message := options.message.getD
    ("Definition for rule '" ++ (options.ruleId.getD "undefined") ++ "' was not found.")
  let severity := options.severity.getD 2
  { ruleId := ruleId
    message := message
    line := loc.start.line
    column := loc.start.column + 1
    endLine := loc.stop.line
    endColumn := loc.stop.column + 1
    severity := severity
    nodeType := none }

/-! ## Rule metadata and the `report` contract (linter.js lines 792-828) -/

/-- The values the `RuleDescriptor` type allows for `meta.fixable`.  Both
are non-empty strings, hence truthy in the `!(rule.meta?.fixable)` check. -/
inductive Fixable where
  | code
  | whitespace
deriving DecidableEq, Repr

/-- The deprecated `meta.docs` object; only the presence of its
`suggestion` property matters (`typeof ... !== "undefined"`). -/
structure RuleDocs where
  suggestion : Option Bool := none

/-- `rule.meta`; every field may be absent (`undefined`). -/
structure RuleMeta where
  fixable : Option Fixable := none
  hasSuggestions : Option Bool := none
  docs : Option RuleDocs := none

/-- `rule.meta?.fixable` is truthy: `meta` exists and `fixable` is one of
the (truthy string) values. -/
def metaFixable (meta : Option RuleMeta) : Option Fixable :=
  meta.bind (·.fixable)

/-- `rule.meta && rule.meta.hasSuggestions === true`. -/
def metaHasSuggestionsTrue (meta : Option RuleMeta) : Bool :=
  match meta with
  | some m => m.hasSuggestions == some true
  | none => false

/-- `rule.meta && rule.meta.docs && typeof rule.meta.docs.suggestion !== "undefined"`. -/
def metaDeprecatedSuggestion (meta : Option RuleMeta) : Bool :=
  match meta with
  | some m =>
    match m.docs with
    | some d => d.suggestion.isSome
    | none => false
  | none => false

/-- The validation performed by `ruleContext.report` on the `problem`
returned by the report translator, before it is pushed onto
`lintingProblems`.  A thrown `Error` is modelled as `Except.error` with the
source's message; it aborts the whole verify call. -/
def reportValidate (meta : Option RuleMeta) (problem : Problem) : Except String Problem :=
  if problem.fix.isSome && !(metaFixable meta).isSome then
    .error "Fixable rules must set the `meta.fixable` property to \"code\" or \"whitespace\"."
  else if problem.suggestions.isSome && !metaHasSuggestionsTrue meta then
    if metaDeprecatedSuggestion meta then
      .error "Rules with suggestions must set the `meta.hasSuggestions` property to `true`. `meta.docs.suggestion` is ignored by ESLint."
    else
      .error "Rules with suggestions must set the `meta.hasSuggestions` property to `true`."
  else
    .ok problem

/-! ## The rule-registration loop of `runRules` (linter.js lines 769-881)

`runRules` iterates `Object.keys(configuredRules)`: it resolves the
severity, skips rules at severity `0` before doing anything else, pushes a
`createLintingProblem` record for configured ids with no implementation,
and otherwise builds a per-rule context, runs the rule's listener factory
(`createRuleListeners`, i.e. `rule.create(ruleContext)`), and registers the
returned listeners on the emitter under their selector keys.  Afterwards it
replays the pre-materialized node queue; each event fires the listeners
registered for that selector, and problems those listeners report carry the
owning rule's id (the report translator is created with `ruleId`). -/

/-- A registered rule as the dispatcher sees it: its `meta` and the
selector keys of the listener map returned by `create(ruleContext)`. -/
structure RuleModule where
  meta : Option RuleMeta := none
  selectors : List String := []

/-- The observable state accumulated by the rule-registration loop:
which rules had their context built and listener factory invoked
(`created`), the `(selector, ruleId)` pairs registered on the emitter, and
the `lintingProblems` pushed so far. -/
structure RunRulesState where
  created : List String := []
  listeners : List (String × String) := []
  problems : List Problem := []
deriving DecidableEq, Repr

/-- One iteration of the `Object.keys(configuredRules).forEach` body of
`runRules`: severity-0 rules are skipped entirely; a missing implementation
pushes `createLintingProblem({ ruleId })`; otherwise the rule's listener
factory runs and its selectors are registered. -/
def processConfiguredRule (ruleMapper : String → Option RuleModule)
    (st : RunRulesState) (entry : String × ConfigJson) : RunRulesState :=
  let ruleId := entry.1
  let severity := getRuleSeverity entry.2
  if severity = JsSeverity.num 0 then st
  else
    match ruleMapper ruleId with
    | none => { st with problems := st.problems ++ [createLintingProblem { ruleId := some ruleId }] }
    | some rule =>
      { st with
        created := st.created ++ [ruleId]
        listeners := st.listeners ++ rule.selectors.map (fun sel => (sel, ruleId)) }

/-- The whole registration loop over the configured rules (in
`Object.keys` order). -/
def registerConfiguredRules (ruleMapper : String → Option RuleModule)
    (configuredRules : List (String × ConfigJson)) : RunRulesState :=
  configuredRules.foldl (processConfiguredRule ruleMapper) {}

/-- The event-replay phase of `runRules`: for each `enter`/`leave` event in
the node queue the emitter fires the listeners registered for that selector
key, in registration order; a problem reported through a rule's context
carries that rule's id (`createReportTranslator({ ruleId, ... })`).
`listenerReports ruleId selector` abstracts what the rule's listener
reports when fired. -/
def dispatchEvents (listeners : List (String × String)) (events : List String)
    (listenerReports : String → String → List Problem) : List Problem :=
  events.flatMap fun ev =>
    (listeners.filter (fun l => l.1 == ev)).flatMap fun l =>
      (listenerReports l.2 ev).map fun p => { p with ruleId := some l.2 }

/-- `runRules`' returned `lintingProblems`: the registration-phase problems
(missing rule definitions) followed by the problems reported during event
dispatch. -/
def runRulesProblems (ruleMapper : String → Option RuleModule)
    (configuredRules : List (String × ConfigJson)) (events : List String)
    (listenerReports : String → String → List Problem) : List Problem :=
  let st := registerConfiguredRules ruleMapper configuredRules
  st.problems ++ dispatchEvents st.listeners events listenerReports

/-! ## Parser resolution in `#verifyWithoutProcessors` (linter.js lines 953-973) -/

/-- `config.parser` as the resolution code distinguishes it:
a non-null object (`{ filePath, definition }`), a string name to look up in
`slots.parserMap`, or anything else (absent, `null`, ...), which keeps the
default parser. -/
inductive ParserSetting where
  | objectOf (filePath : String)
  | nameOf (s : String)
  | missing

/-- `DEFAULT_PARSER_NAME = "espree"`. -/
def DEFAULT_PARSER_NAME : String := "espree"

/-- The problem returned for an unresolved named parser (linter.js lines
962-969): note the literal `fatal: true` in the source. -/
def unknownParserProblem (name : String) : Problem :=
  { ruleId := none
    fatal := true
    severity := 2
    message := "Configured parser '" ++ name ++ "' was not found."
    line := 0
    column := 0 }

/-- The parser-resolution prefix of `Linter##verifyWithoutProcessors` and
everything after it, as one function: when `config.parser` is a string not
present in `slots.parserMap` the method returns the singleton problem list
immediately; otherwise it continues with the resolved parser name
(`restOfVerify` stands for the rest of the method: env handling, parsing,
`runRules`, directive application). -/
def verifyParserPhase (parserMap : List String) (parserSetting : ParserSetting)
    (restOfVerify : String → List Problem) : List Problem :=
  match parserSetting with
  | .objectOf filePath => restOfVerify filePath
  | .nameOf name =>
    if parserMap.contains name then restOfVerify name
    else [unknownParserProblem name]
  | .missing => restOfVerify DEFAULT_PARSER_NAME

/-! ## The autofix coordinator `Linter#verifyAndFix` (linter.js lines 1171-1227)

The loop alternates a verification pass (`#verifyWithConfigArray`, taken
here as an abstract `verify : String → List Problem` — the config and the
remaining verify options are fixed throughout the loop) with the external
text patcher `SourceCodeFixer.applyFixes`, likewise abstract.  The patcher
receives the current text, the pass's problems and `shouldFix`, and
returns `{ fixed, messages, output }`. -/

/-- `options.fix`: a boolean or a per-problem predicate. -/
inductive FixMode where
  | bool (b : Bool)
  | pred (f : Problem → Bool)

/-- The `FixOptions` part of `verifyAndFix`'s options object: a possibly
absent `fix` field. -/
structure FixOptions where
  fix : Option FixMode := none

/-- The record returned by `SourceCodeFixer.applyFixes` and by
`verifyAndFix` itself. -/
structure FixResult where
  fixed : Bool
  messages : List Problem
  output : String
deriving DecidableEq, Repr

/-- One verify-and-patch round of the loop, for the trace: the text the
round started from, the problems `verify` produced for it, and the
patcher's result. -/
structure PassRecord where
  textBefore : String
  messages : List Problem
  result : FixResult
deriving DecidableEq, Repr

/-- `messages.length === 1 && messages[0].fatal` (the syntax-error
short-circuit of the loop). -/
def fatalStop : List Problem → Bool
  | [m] => m.fatal
  | _ => false

/-- `MAX_AUTOFIX_PASSES = 10`. -/
def MAX_AUTOFIX_PASSES : Nat := 10

/-- The `do`/`while` loop of `verifyAndFix`, instrumented with a trace of
the rounds it ran.  `fuel` is the number of *further* passes the
`passNumber < MAX_AUTOFIX_PASSES` guard still allows (the loop enters with
`fuel = MAX_AUTOFIX_PASSES - 1`, pass number `n` running at
`fuel = MAX_AUTOFIX_PASSES - n`).  Returns
`(trace, currentText, fixed, fixedResult)` — the values of the loop's
variables when it exits. -/
def autofixPasses (verify : String → List Problem)
    (applyFixes : String → List Problem → FixMode → FixResult) (shouldFix : FixMode) :
    Nat → String → Bool → List PassRecord × String × Bool × FixResult
  | fuel, currentText, fixed =>
    let messages := verify currentText
    let fixedResult := applyFixes currentText messages shouldFix
    if fatalStop messages then
      -- break before `fixed`/`currentText` are updated
      ([⟨currentText, messages, fixedResult⟩], currentText, fixed, fixedResult)
    else
      let fixedAcc := fixed || fixedResult.fixed
      let nextText := fixedResult.output
      match fuel with
      | f + 1 =>
        if fixedResult.fixed then
          let tail := autofixPasses verify applyFixes shouldFix f nextText fixedAcc
          (⟨currentText, messages, fixedResult⟩ :: tail.1, tail.2)
        else
          ([⟨currentText, messages, fixedResult⟩], nextText, fixedAcc, fixedResult)
      | 0 =>
        ([⟨currentText, messages, fixedResult⟩], nextText, fixedAcc, fixedResult)

/-- `verifyAndFix` after option handling: the loop, then the post-loop
re-verification (`if (fixedResult.fixed) fixedResult.messages = ...`), then
the overwrite of `fixedResult.fixed`/`fixedResult.output` with the
cumulative flag and the latest text.  Also returns the round trace. -/
def verifyAndFixLoop (verify : String → List Problem)
    (applyFixes : String → List Problem → FixMode → FixResult) (shouldFix : FixMode)
    (text : String) : FixResult × List PassRecord :=
  let r := autofixPasses verify applyFixes shouldFix (MAX_AUTOFIX_PASSES - 1) text false
  let currentText := r.2.1
  let fixed := r.2.2.1
  let fixedResult := r.2.2.2
  let fixedResult :=
    if fixedResult.fixed then { fixedResult with messages := verify currentText } else fixedResult
  ({ fixedResult with fixed := fixed, output := currentText }, r.1)

/-- The observable ways a `verifyAndFix` call can blow up before producing
a `FixResult`. -/
inductive JsError where
  | typeError
deriving DecidableEq, Repr

/-- `Linter#verifyAndFix(text, config, options)` including its option
handling.  `const shouldFix = options?.fix ?? true` tolerates an omitted
`options` argument, but the loop's very first verification pass calls
`#verifyWithConfigArray` → `#verifyWithoutProcessors` →
`normalizeVerifyOptions(providedOptions, config)`, which unconditionally
reads `providedOptions.allowInlineConfig` (linter.js line 372) — a
`TypeError` on `undefined` that propagates out of `verifyAndFix`.  With an
options object present the loop runs normally. -/
def verifyAndFix (verify : String → List Problem)
    (applyFixes : String → List Problem → FixMode → FixResult)
    (options : Option FixOptions) (text : String) : Except JsError FixResult :=
  let shouldFix :=
    match options with
    | none => FixMode.bool true
    | some o => o.fix.getD (FixMode.bool true)
  match options with
  | none => .error .typeError
  | some _ => .ok (verifyAndFixLoop verify applyFixes shouldFix text).1

/-! ## Token cursors (`lib/source-code/token-store`)

`cursors.js` (in the sources) builds a cursor as a base cursor — selected
by direction and comment inclusion — optionally decorated by Filter, then
Skip, then Limit, in that fixed order.  `backward-token-cursor.js` is in
the sources; the forward base cursor and the decorator classes
(`forward-token-cursor.js`, `filter-cursor.js`, `skip-cursor.js`,
`limit-cursor.js`, subclasses of the `DecorativeCursor` that is in the
sources) are modelled from the spec: Filter skips values failing a
predicate, Skip discards the first N accepted values, Limit stops after N
values where N = 0 yields the empty sequence.  The token-only and
token+comment base cursors differ only in the underlying ordered sequence,
so both are represented by a base cursor over the chosen sequence.
`utils.getFirstIndex`/`utils.getLastIndex` (external `utils.js`) resolve
`startLoc`/`endLoc` through the location index map; the resolved boundary
indices are taken as parameters here. -/

/-- A cursor state: the two base cursors hold their token array, the
mutable `index`, the fixed `indexEnd` and the `current` slot; each
decorator holds its own mutable state, the wrapped cursor and its own
`current` slot. -/
inductive TokenCursor (α : Type) where
  | forward (tokens : List α) (index : Int) (indexEnd : Int) (current : Option α)
  | backward (tokens : List α) (index : Int) (indexEnd : Int) (current : Option α)
  | filterCursor (pred : α → Bool) (inner : TokenCursor α) (current : Option α)
  | skipCursor (count : Nat) (inner : TokenCursor α) (current : Option α)
  | limitCursor (count : Nat) (inner : TokenCursor α) (current : Option α)

/-- `this.tokens[i]` (JavaScript array indexing; out of range is
`undefined`). -/
def getI {α : Type} (tokens : List α) (i : Int) : Option α :=
  if 0 ≤ i then tokens[i.toNat]? else none

/-- The `current` property of a cursor. -/
def cursorCurrent {α : Type} : TokenCursor α → Option α
  | .forward _ _ _ c => c
  | .backward _ _ _ c => c
  | .filterCursor _ _ c => c
  | .skipCursor _ _ c => c
  | .limitCursor _ _ c => c

/-- Decorator nesting depth (used as structural fuel for `moveNextD`:
one level of `moveNext` delegation per decorator). -/
def cursorDepth {α : Type} : TokenCursor α → Nat
  | .forward _ _ _ _ => 1
  | .backward _ _ _ _ => 1
  | .filterCursor _ inner _ => cursorDepth inner + 1
  | .skipCursor _ inner _ => cursorDepth inner + 1
  | .limitCursor _ inner _ => cursorDepth inner + 1

/-- An upper bound on how many values the underlying base cursor can still
produce (the length of its remaining index range). -/
def cursorSize {α : Type} : TokenCursor α → Nat
  | .forward _ i e _ => (e + 1 - i).toNat
  | .backward _ i e _ => (i + 1 - e).toNat
  | .filterCursor _ inner _ => cursorSize inner
  | .skipCursor _ inner _ => cursorSize inner
  | .limitCursor _ inner _ => cursorSize inner

/-- `FilterCursor#moveNext` (modelled from the spec: skip values failing
the predicate): `while (cursor.moveNext()) { if (predicate(cursor.current))
{ this.current = ...; return true } } return false`.  The wrapped cursor's
`moveNext` is passed in as `mn`; `fuel` bounds the loop (it is called with
more fuel than the inner cursor has values). -/
def filterGo {α : Type} (mn : TokenCursor α → Bool × TokenCursor α) (pred : α → Bool) :
    Nat → TokenCursor α → Bool × TokenCursor α
  | 0, st => (false, st)
  | fuel + 1, st =>
    match mn st with
    | (true, st') =>
      match cursorCurrent st' with
      | some tok => if pred tok then (true, st') else filterGo mn pred fuel st'
      | none => filterGo mn pred fuel st'
    | (false, st') => (false, st')

/-- `SkipCursor#moveNext` (modelled from the spec: discard the first N
accepted values): `while (count > 0) { count -= 1; if (!super.moveNext())
return false } return super.moveNext()`.  Returns the remaining count,
the result, and the advanced inner cursor. -/
def skipGo {α : Type} (mn : TokenCursor α → Bool × TokenCursor α) :
    Nat → TokenCursor α → Nat × Bool × TokenCursor α
  | 0, st =>
    match mn st with
    | (ok, st') => (0, ok, st')
  | n + 1, st =>
    match mn st with
    | (true, st') => skipGo mn n st'
    | (false, st') => (n, false, st')

/-- `moveNext`, with the decorator depth as structural fuel: each level of
delegation peels one unit, so `moveNextD (cursorDepth c) c` is the real
`moveNext`.  Base cursors follow the source
(`backward-token-cursor.js`; the forward cursor symmetrically): test the
index against `indexEnd`, load `current`, advance the index.  Decorators
follow `DecorativeCursor` (in the sources: delegate and copy `current`)
with their spec-modelled loop/limit logic. -/
def moveNextD {α : Type} : Nat → TokenCursor α → Bool × TokenCursor α
  | 0, c => (false, c)
  | d + 1, c =>
    match c with
    | .forward tokens i e _ =>
      if i ≤ e then (true, .forward tokens (i + 1) e (getI tokens i))
      else (false, c)
    | .backward tokens i e _ =>
      if e ≤ i then (true, .backward tokens (i - 1) e (getI tokens i))
      else (false, c)
    | .filterCursor pred inner cu =>
      match filterGo (moveNextD d) pred (cursorSize inner + 1) inner with
      | (true, inner') => (true, .filterCursor pred inner' (cursorCurrent inner'))
      | (false, inner') => (false, .filterCursor pred inner' cu)
    | .skipCursor n inner _ =>
      match skipGo (moveNextD d) n inner with
      | (n', ok, inner') => (ok, .skipCursor n' inner' (cursorCurrent inner'))
    | .limitCursor n inner _ =>
      match n with
      | 0 => (false, c)
      | m + 1 =>
        match moveNextD d inner with
        | (ok, inner') => (ok, .limitCursor m inner' (cursorCurrent inner'))

/-- `Cursor#moveNext`. -/
def cursorMoveNext {α : Type} (c : TokenCursor α) : Bool × TokenCursor α :=
  moveNextD (cursorDepth c) c

/-- Drain a cursor: repeatedly call `moveNext`, reading `current` after
every successful call (the value sequence a consumer of the cursor
observes). -/
def collectFuel {α : Type} : Nat → TokenCursor α → List α
  | 0, _ => []
  | fuel + 1, c =>
    match cursorMoveNext c with
    | (true, c') =>
      match cursorCurrent c' with
      | some v => v :: collectFuel fuel c'
      | none => collectFuel fuel c'
    | (false, _) => []

/-- The full value sequence of a cursor (`cursorSize` bounds the number of
successful `moveNext` calls). -/
def cursorToList {α : Type} (c : TokenCursor α) : List α :=
  collectFuel (cursorSize c + 1) c

/-- The values at indices `i, i+1, ...` (`k` of them) that exist. -/
def takeIdxAsc {α : Type} (tokens : List α) : Nat → Int → List α
  | 0, _ => []
  | k + 1, i =>
    match getI tokens i with
    | some v => v :: takeIdxAsc tokens k (i + 1)
    | none => takeIdxAsc tokens k (i + 1)

/-- The values at indices `i, i-1, ...` (`k` of them) that exist. -/
def takeIdxDesc {α : Type} (tokens : List α) : Nat → Int → List α
  | 0, _ => []
  | k + 1, i =>
    match getI tokens i with
    | some v => v :: takeIdxDesc tokens k (i - 1)
    | none => takeIdxDesc tokens k (i - 1)

/-- The value sequence a cursor still has to produce, compositionally:
base slices for the base cursors, eager `filter`/`drop`/`take` for the
decorators. -/
def cursorPending {α : Type} : TokenCursor α → List α
  | .forward t i e _ => takeIdxAsc t ((e + 1 - i).toNat) i
  | .backward t i e _ => takeIdxDesc t ((i + 1 - e).toNat) i
  | .filterCursor p inner _ => (cursorPending inner).filter p
  | .skipCursor n inner _ => (cursorPending inner).drop n
  | .limitCursor n inner _ => (cursorPending inner).take n

/-- Well-formedness: the boundary indices of the base cursor address the
token array (as the `utils.js` index resolution guarantees). -/
def cursorWF {α : Type} : TokenCursor α → Prop
  | .forward t i e _ => 0 ≤ i ∧ e < (t.length : Int)
  | .backward t i e _ => 0 ≤ e ∧ i < (t.length : Int)
  | .filterCursor _ inner _ => cursorWF inner
  | .skipCursor _ inner _ => cursorWF inner
  | .limitCursor _ inner _ => cursorWF inner

/-- `CursorFactory#createBaseCursor` (cursors.js lines 46-50): pick the
class by comment inclusion; the backward constructor starts at the last
index and stops at the first, the forward one symmetrically
(`backward-token-cursor.js` constructor). -/
def createBaseCursor {α : Type} (isBackward : Bool) (seqTokens seqWithComments : List α)
    (firstIndex lastIndex : Int) (includeComments : Bool) : TokenCursor α :=
  let seq := if includeComments then seqWithComments else seqTokens
  if isBackward then .backward seq lastIndex firstIndex none
  else .forward seq firstIndex lastIndex none

/-- `CursorFactory#createCursor` (cursors.js lines 65-79): base cursor,
then `if (filter)`, `if (skip >= 1)`, `if (count >= 0)` layering — absent
options (`none`, JavaScript `undefined`) fail the numeric comparisons. -/
def createCursor {α : Type} (isBackward : Bool) (seqTokens seqWithComments : List α)
    (firstIndex lastIndex : Int) (includeComments : Bool)
    (filter : Option (α → Bool)) (skip : Option Int) (count : Option Int) : TokenCursor α :=
  let cursor := createBaseCursor isBackward seqTokens seqWithComments
    firstIndex lastIndex includeComments
  let cursor :=
    match filter with
    | some pred => .filterCursor pred cursor none
    | none => cursor
  let cursor :=
    match skip with
    | some s => if 1 ≤ s then .skipCursor s.toNat cursor none else cursor
    | none => cursor
  match count with
  | some ct => if 0 ≤ ct then .limitCursor ct.toNat cursor none else cursor
  | none => cursor

/-! ## Traverser (lib/shared/traverser.js, part_003 lines 1280-1410)

An AST node has a type and keyed children; a child value is either a
non-node value, a single child node, or an array (whose non-node elements
are skipped by `#traverse`). -/

mutual
inductive AstNode where
  | mk (nodeType : String) (children : List (String × AstChild))
inductive AstChild where
  | nonNode
  | one (node : AstNode)
  | many (elems : List AstChild)
end

def astNodeType : AstNode → String
  | .mk t _ => t

def astChildren : AstNode → List (String × AstChild)
  | .mk _ ch => ch

/-- `node[key]` lookup used by the traversal loop over visitor keys. -/
def lookupChild (n : AstNode) (key : String) : Option AstChild :=
  ((astChildren n).find? (fun pr => pr.1 == key)).map (fun pr => pr.2)

/-- A child found under a key is structurally smaller than its parent node
(used to justify termination of the mutual traversal below). -/
theorem lookupChild_sizeOf {n : AstNode} {key : String} {ch : AstChild}
    (h : lookupChild n key = some ch) : sizeOf ch < sizeOf n := by
  unfold lookupChild at h
  rcases hf : (astChildren n).find? (fun pr => pr.1 == key) with _ | pr
  · rw [hf] at h
    exact Option.noConfusion h
  · rw [hf] at h
    simp at h
    have hmem : pr ∈ astChildren n := List.mem_of_find?_eq_some hf
    have h1 : sizeOf pr < sizeOf (astChildren n) := List.sizeOf_lt_of_mem hmem
    cases n with
    | mk t children =>
      simp only [astChildren] at h1
      rcases pr with ⟨k, c⟩
      simp only [Prod.mk.sizeOf_spec] at h1
      rw [← h]
      simp only [AstNode.mk.sizeOf_spec]
      omega

/-- `visitorKeys[node.type] || Object.keys(node)` (getKeys fallback). -/
def getVisitorKeysM (vk : String → Option (List String)) (n : AstNode) : List String :=
  match vk (astNodeType n) with
  | some keys => keys
  | none => (astChildren n).map (fun pr => pr.1)

/-- One observable callback invocation: `entering` tells enter from leave,
and `brokenAfter` records the `#broken` flag right after the callback ran. -/
structure TravEvent where
  entering : Bool
  node : AstNode
  brokenAfter : Bool

/-- Traversal state: the `#broken` flag, the event trace so far, and the
visitor's own state `user` (threaded through enter/leave). -/
structure TravState (υ : Type) where
  broken : Bool
  events : List TravEvent
  user : υ

/-! `#traverse(node, parent)` from part_003 lines 1383-1406, with the
visitor's `enter`/`leave` as explicit functions: `enter` returns the new
user state plus (skip-requested, break-requested); `leave` returns the new
user state plus break-requested.  `this.#skipped` is per-node (reset before
each enter), so it is threaded locally as `e.2.1`; `this.#broken` is global.
The enter event is recorded, then children are visited only if neither
skipped nor broken, then `leave` runs only if not broken (the
`if (!this.#broken ...)` guards at lines 1396 and 1402). -/

mutual

def travNode {υ : Type} (vk : String → Option (List String))
    (enter : υ → AstNode → Option AstNode → υ × Bool × Bool)
    (leave : υ → AstNode → Option AstNode → υ × Bool) :
    Option AstNode → Option AstNode → TravState υ → TravState υ
  | none, _, st => st
  | some n, parent, st =>
    let e := enter st.user n parent
    let broken1 := st.broken || e.2.2
    let st1 : TravState υ := ⟨broken1, st.events ++ [⟨true, n, broken1⟩], e.1⟩
    let st2 :=
      if !e.2.1 && !st1.broken then
        travKeys vk enter leave n (getVisitorKeysM vk n) st1
      else st1
    if !st2.broken then
      let l := leave st2.user n parent
      let broken2 := st2.broken || l.2
      ⟨broken2, st2.events ++ [⟨false, n, broken2⟩], l.1⟩
    else st2
termination_by node parent st => (sizeOf node, 0, 0)

def travKeys {υ : Type} (vk : String → Option (List String))
    (enter : υ → AstNode → Option AstNode → υ × Bool × Bool)
    (leave : υ → AstNode → Option AstNode → υ × Bool) :
    AstNode → List String → TravState υ → TravState υ
  | _, [], st => st
  | n, key :: rest, st =>
    if st.broken then st
    else
      let st' :=
        match hc : lookupChild n key with
        | some (.one c) => travNode vk enter leave (some c) (some n) st
        | some (.many xs) => travArr vk enter leave xs n st
        | some .nonNode => st
        | none => st
      travKeys vk enter leave n rest st'
termination_by n keys st => (sizeOf n, 1, keys.length)
decreasing_by
  all_goals first
    | decreasing_tactic
    | (simp_wf
       have hsz := lookupChild_sizeOf hc
       simp only [AstChild.one.sizeOf_spec, AstChild.many.sizeOf_spec] at hsz
       apply Prod.Lex.left
       try simp only [Option.some.sizeOf_spec]
       omega)

def travArr {υ : Type} (vk : String → Option (List String))
    (enter : υ → AstNode → Option AstNode → υ × Bool × Bool)
    (leave : υ → AstNode → Option AstNode → υ × Bool) :
    List AstChild → AstNode → TravState υ → TravState υ
  | [], _, st => st
  | x :: rest, n, st =>
    if st.broken then st
    else
      let st' :=
        match x with
        | .one c => travNode vk enter leave (some c) (some n) st
        | _ => st
      travArr vk enter leave rest n st'
termination_by xs n st => (sizeOf xs, 2, 0)

end

/-- All events of a trace were recorded with the broken flag still clear. -/
def marksFlat (evs : List TravEvent) : Prop := ∀ ev ∈ evs, ev.brokenAfter = false

/-- Invariant of the traversal: either the state is unbroken and every
recorded event saw a clear broken flag, or it is broken and exactly the
last event is the one after which the flag was set. -/
def traceOk {υ : Type} (st : TravState υ) : Prop :=
  (st.broken = false ∧ marksFlat st.events) ∨
  (st.broken = true ∧ ∃ pre ev, st.events = pre ++ [ev] ∧ ev.brokenAfter = true ∧ marksFlat pre)

/-- Traverser#traverse resets the #broken/#skipped flags and walks the tree
from the root with a null parent (part_003 lines 1372-1381). -/
def traverse {υ : Type} (vk : String → Option (List String))
    (enter : υ → AstNode → Option AstNode → υ × Bool × Bool)
    (leave : υ → AstNode → Option AstNode → υ × Bool)
    (root : AstNode) (u0 : υ) : TravState υ :=
  travNode vk enter leave (some root) none ⟨false, [], u0⟩

/-! # Theorems -/

/-! ## C5: severity encodings -/

/-- Any value that is not one of the spec's severity literals and does not
lower-case to a prototype-chain key resolves to severity 0 through the
`=== 0|1|2` / string-lookup fallthrough. -/
theorem severityFromValue_of_not_literal (v : ConfigJson)
    (h : specIsSeverityLiteral v = false) (hp : isProtoKeyString v = false) :
    severityFromValue v = .num 0 := by
  cases v with
  | num n =>
    simp only [specIsSeverityLiteral, Bool.or_eq_false_iff, beq_eq_false_iff_ne, ne_eq] at h
    have h' : ¬(n = 0 ∨ n = 1 ∨ n = 2) := by
      rintro (h0 | h1 | h2) <;> simp_all
    simp only [severityFromValue]
    rw [if_neg h']
  | str s =>
    simp only [specIsSeverityLiteral, Bool.or_eq_false_iff, beq_eq_false_iff_ne, ne_eq] at h
    simp only [isProtoKeyString, Bool.or_eq_false_iff, beq_eq_false_iff_ne, ne_eq] at hp
    simp only [severityFromValue, ruleSeverityLookupOr0]
    rw [if_neg h.1.1, if_neg h.1.2, if_neg h.2, if_neg hp.1, if_neg hp.2]
  | bool b => rfl
  | null => rfl
  | undef => rfl
  | arr xs => rfl
  | obj => rfl

/-- C5 counterexample: `"constructor"` is not `0`, `1` or `2` and is not a
case-insensitive match of `"off"`/`"warn"`/`"error"`, so by the claim it
must resolve to severity 0 — but `getRuleSeverity` returns the truthy
`constructor` member inherited from `Object.prototype` (the `RULE_SEVERITY`
table is a plain object, so the missed own-property lookup walks the
prototype chain, and `|| 0` keeps the truthy inherited value). -/
theorem getRuleSeverity_proto_counterexample :
    specIsSeverityEncoding (ConfigJson.str "constructor") = false ∧
    getRuleSeverity (ConfigJson.str "constructor") = JsSeverity.objectCtor ∧
    getRuleSeverity (ConfigJson.str "constructor") ≠ JsSeverity.num 0 := by
  decide

/-- C5 (amended): the `2`/`"error"`/`"Error"`/`[2, ...]` encodings (and the
corresponding `0`/`"off"` and `1`/`"warn"` families, case-insensitively)
all resolve to the same effective severity; every value that is neither one
of those encodings nor a string lower-casing to `"constructor"` or
`"__proto__"` (directly or as the array's first element) resolves to
severity 0; the two prototype-chain keys instead resolve to the truthy
member inherited from `Object.prototype`, not to severity 0. -/
theorem getRuleSeverity_encodings (rest : List ConfigJson) (v : ConfigJson) :
    (getRuleSeverity (.num 2) = .num 2 ∧ getRuleSeverity (.str "error") = .num 2 ∧
      getRuleSeverity (.str "Error") = .num 2 ∧ getRuleSeverity (.arr (.num 2 :: rest)) = .num 2 ∧
      getRuleSeverity (.arr (.str "Error" :: rest)) = .num 2) ∧
    (getRuleSeverity (.num 0) = .num 0 ∧ getRuleSeverity (.str "off") = .num 0 ∧
      getRuleSeverity (.str "Off") = .num 0 ∧ getRuleSeverity (.arr (.num 0 :: rest)) = .num 0 ∧
      getRuleSeverity (.arr (.str "Off" :: rest)) = .num 0) ∧
    (getRuleSeverity (.num 1) = .num 1 ∧ getRuleSeverity (.str "warn") = .num 1 ∧
      getRuleSeverity (.str "Warn") = .num 1 ∧ getRuleSeverity (.arr (.num 1 :: rest)) = .num 1 ∧
      getRuleSeverity (.arr (.str "Warn" :: rest)) = .num 1) ∧
    (specIsSeverityEncoding v = false → isProtoKeyString (severityValueOf v) = false →
      getRuleSeverity v = .num 0) ∧
    (getRuleSeverity (.str "constructor") = .objectCtor ∧
      getRuleSeverity (.str "__proto__") = .objectProto ∧
      getRuleSeverity (.arr (.str "Constructor" :: rest)) = .objectCtor) := by
  refine ⟨⟨rfl, rfl, rfl, rfl, rfl⟩, ⟨rfl, rfl, rfl, rfl, rfl⟩, ⟨rfl, rfl, rfl, rfl, rfl⟩,
    ?_, rfl, rfl, rfl⟩
  intro h hp
  cases v with
  | arr xs =>
    cases xs with
    | nil => rfl
    | cons x tl =>
      simp only [specIsSeverityEncoding] at h
      simp only [severityValueOf, List.headD_cons] at hp
      simpa only [getRuleSeverity, severityValueOf, List.headD_cons] using
        severityFromValue_of_not_literal x h hp
  | num n => exact severityFromValue_of_not_literal _ h hp
  | str s => exact severityFromValue_of_not_literal _ h hp
  | bool b => exact severityFromValue_of_not_literal _ h hp
  | null => exact severityFromValue_of_not_literal _ h hp
  | undef => exact severityFromValue_of_not_literal _ h hp
  | obj => exact severityFromValue_of_not_literal _ h hp

/-- Witness for C5 (amended) at a concrete non-encoding, non-prototype-key
value. -/
theorem getRuleSeverity_encodings_witness :
    specIsSeverityEncoding (.str "banana") = false ∧
      isProtoKeyString (severityValueOf (.str "banana")) = false ∧
      getRuleSeverity (.str "banana") = .num 0 :=
  ⟨by decide, by decide,
    (getRuleSeverity_encodings [] (.str "banana")).2.2.2.1 (by decide) (by decide)⟩

/-! ## C6/C7: the rule-registration loop -/

/-- One registration step starting from an arbitrary accumulated state is
the step from the empty state, appended component-wise. -/
theorem processConfiguredRule_split (m : String → Option RuleModule)
    (st : RunRulesState) (e : String × ConfigJson) :
    processConfiguredRule m st e =
      ⟨st.created ++ (processConfiguredRule m {} e).created,
       st.listeners ++ (processConfiguredRule m {} e).listeners,
       st.problems ++ (processConfiguredRule m {} e).problems⟩ := by
  simp only [processConfiguredRule]
  split
  · simp
  · cases h : m e.1 <;> simp [h]

/-- The registration fold from an arbitrary starting state is the fold
from the empty state, appended component-wise. -/
theorem foldl_processConfiguredRule (m : String → Option RuleModule)
    (l : List (String × ConfigJson)) (st : RunRulesState) :
    l.foldl (processConfiguredRule m) st =
      ⟨st.created ++ (registerConfiguredRules m l).created,
       st.listeners ++ (registerConfiguredRules m l).listeners,
       st.problems ++ (registerConfiguredRules m l).problems⟩ := by
  induction l generalizing st with
  | nil => simp [registerConfiguredRules]
  | cons e tl ih =>
    show List.foldl _ (processConfiguredRule m st e) tl = _
    rw [ih (processConfiguredRule m st e)]
    have hrec : registerConfiguredRules m (e :: tl)
        = tl.foldl (processConfiguredRule m) (processConfiguredRule m {} e) := rfl
    rw [hrec, ih (processConfiguredRule m {} e),
      processConfiguredRule_split m st e]
    simp

/-- A rule id appears in `created` (its context was built and its listener
factory invoked) only if some configured entry for that id has nonzero
resolved severity. -/
theorem registerConfiguredRules_created_src (m : String → Option RuleModule)
    (l : List (String × ConfigJson)) (r : String) :
    r ∈ (registerConfiguredRules m l).created →
      ∃ cfg, (r, cfg) ∈ l ∧ getRuleSeverity cfg ≠ JsSeverity.num 0 := by
  induction l with
  | nil => simp [registerConfiguredRules]
  | cons e tl ih =>
    intro hmem
    rw [show registerConfiguredRules m (e :: tl)
          = List.foldl (processConfiguredRule m) (processConfiguredRule m {} e) tl from rfl,
        foldl_processConfiguredRule] at hmem
    rcases List.mem_append.mp hmem with hhd | htl
    · by_cases hs : getRuleSeverity e.2 = JsSeverity.num 0
      · simp [processConfiguredRule, hs] at hhd
      · rcases hm : m e.1 with _ | rule
        · simp [processConfiguredRule, hs, hm] at hhd
        · simp [processConfiguredRule, hs, hm] at hhd
          exact ⟨e.2, by simp [hhd], hs⟩
    · obtain ⟨cfg, hc, hsev⟩ := ih htl
      exact ⟨cfg, List.mem_cons_of_mem _ hc, hsev⟩

/-- A listener is registered for a rule id only if some configured entry
for that id has nonzero resolved severity. -/
theorem registerConfiguredRules_listeners_src (m : String → Option RuleModule)
    (l : List (String × ConfigJson)) (sel r : String) :
    (sel, r) ∈ (registerConfiguredRules m l).listeners →
      ∃ cfg, (r, cfg) ∈ l ∧ getRuleSeverity cfg ≠ JsSeverity.num 0 := by
  induction l with
  | nil => simp [registerConfiguredRules]
  | cons e tl ih =>
    intro hmem
    rw [show registerConfiguredRules m (e :: tl)
          = List.foldl (processConfiguredRule m) (processConfiguredRule m {} e) tl from rfl,
        foldl_processConfiguredRule] at hmem
    rcases List.mem_append.mp hmem with hhd | htl
    · by_cases hs : getRuleSeverity e.2 = JsSeverity.num 0
      · simp [processConfiguredRule, hs] at hhd
      · rcases hm : m e.1 with _ | rule
        · simp [processConfiguredRule, hs, hm] at hhd
        · simp [processConfiguredRule, hs, hm, List.mem_map] at hhd
          obtain ⟨a, -, -, her⟩ := hhd
          exact ⟨e.2, by rw [← her]; exact List.mem_cons_self _ _, hs⟩
    · obtain ⟨cfg, hc, hsev⟩ := ih htl
      exact ⟨cfg, List.mem_cons_of_mem _ hc, hsev⟩

/-- A registration-phase problem naming a rule id (a missing-definition
problem) exists only if some configured entry for that id has nonzero
resolved severity. -/
theorem registerConfiguredRules_problems_src (m : String → Option RuleModule)
    (l : List (String × ConfigJson)) (r : String) :
    ∀ p ∈ (registerConfiguredRules m l).problems, p.ruleId = some r →
      ∃ cfg, (r, cfg) ∈ l ∧ getRuleSeverity cfg ≠ JsSeverity.num 0 := by
  induction l with
  | nil => simp [registerConfiguredRules]
  | cons e tl ih =>
    intro p hmem hid
    rw [show registerConfiguredRules m (e :: tl)
          = List.foldl (processConfiguredRule m) (processConfiguredRule m {} e) tl from rfl,
        foldl_processConfiguredRule] at hmem
    rcases List.mem_append.mp hmem with hhd | htl
    · by_cases hs : getRuleSeverity e.2 = JsSeverity.num 0
      · simp [processConfiguredRule, hs] at hhd
      · rcases hm : m e.1 with _ | rule
        · simp [processConfiguredRule, hs, hm] at hhd
          rw [hhd] at hid
          simp [createLintingProblem] at hid
          exact ⟨e.2, by rw [← hid]; exact List.mem_cons_self _ _, hs⟩
        · simp [processConfiguredRule, hs, hm] at hhd
    · obtain ⟨cfg, hc, hsev⟩ := ih p htl hid
      exact ⟨cfg, List.mem_cons_of_mem _ hc, hsev⟩

/-- C6: a configured rule whose config value resolves to severity 0 is
skipped entirely by `runRules`: its listener factory is never invoked (no
context is built), no listener of it is registered on the emitter, and it
contributes no Problem — neither in the registration phase nor through
event dispatch. -/
theorem runRules_severity_zero_skips (m : String → Option RuleModule)
    (configuredRules : List (String × ConfigJson)) (events : List String)
    (listenerReports : String → String → List Problem) (r : String)
    (h : ∀ cfg, (r, cfg) ∈ configuredRules → getRuleSeverity cfg = JsSeverity.num 0) :
    r ∉ (registerConfiguredRules m configuredRules).created ∧
    (∀ sel, (sel, r) ∉ (registerConfiguredRules m configuredRules).listeners) ∧
    (∀ p ∈ runRulesProblems m configuredRules events listenerReports,
      p.ruleId ≠ some r) := by
  refine ⟨?_, ?_, ?_⟩
  · intro hmem
    obtain ⟨cfg, hc, hs⟩ := registerConfiguredRules_created_src m _ r hmem
    exact hs (h cfg hc)
  · intro sel hmem
    obtain ⟨cfg, hc, hs⟩ := registerConfiguredRules_listeners_src m _ sel r hmem
    exact hs (h cfg hc)
  · intro p hmem hid
    unfold runRulesProblems at hmem
    rcases List.mem_append.mp hmem with hreg | hdisp
    · obtain ⟨cfg, hc, hs⟩ := registerConfiguredRules_problems_src m _ r p hreg hid
      exact hs (h cfg hc)
    · simp only [dispatchEvents, List.mem_flatMap, List.mem_filter, List.mem_map] at hdisp
      obtain ⟨ev, -, lpair, ⟨hlmem, -⟩, q, -, hpq⟩ := hdisp
      have hrid : lpair.2 = r := by
        have : p.ruleId = some lpair.2 := by rw [← hpq]
        rw [hid] at this
        exact (Option.some_injective _ this.symm)
      obtain ⟨cfg, hc, hs⟩ :=
        registerConfiguredRules_listeners_src m configuredRules lpair.1 r
          (by rw [← hrid]; exact hlmem)
      exact hs (h cfg hc)

/-- Witness for C6 at a concrete configuration: the `"a"` rule is
configured `"off"`, an implementation exists for it, yet it is never
created. -/
theorem runRules_severity_zero_skips_witness :
    getRuleSeverity (ConfigJson.str "off") = JsSeverity.num 0 ∧
    "a" ∉ (registerConfiguredRules
        (fun _ => some { selectors := ["Identifier"] })
        [("a", ConfigJson.str "off"), ("b", ConfigJson.num 2)]).created := by
  have h : ∀ cfg, (("a", cfg) ∈ [("a", ConfigJson.str "off"), ("b", ConfigJson.num 2)]) →
      getRuleSeverity cfg = JsSeverity.num 0 := by
    intro cfg hc
    simp only [List.mem_cons, List.not_mem_nil, or_false, Prod.mk.injEq] at hc
    rcases hc with ⟨-, rfl⟩ | ⟨hab, -⟩
    · decide
    · exact absurd hab (by decide)
  exact ⟨by decide,
    (runRules_severity_zero_skips (fun _ => some { selectors := ["Identifier"] })
      [("a", ConfigJson.str "off"), ("b", ConfigJson.num 2)] [] (fun _ _ => []) "a" h).1⟩

/-- C7: a configured rule id with nonzero severity and no registered
implementation adds exactly one Problem — `Definition for rule '<id>' was
not found.`, severity 2, line 1, column 1, endLine 1, endColumn 2,
nodeType null — and the loop keeps processing the remaining configured
rules exactly as it otherwise would (their created/listener/problem
contributions are unchanged); nothing fails. -/
theorem runRules_missing_rule_definition (m : String → Option RuleModule)
    (pre post : List (String × ConfigJson)) (r : String) (cfg : ConfigJson)
    (hsev : getRuleSeverity cfg ≠ JsSeverity.num 0) (hmiss : m r = none) :
    registerConfiguredRules m (pre ++ (r, cfg) :: post) =
      ⟨(registerConfiguredRules m pre).created ++ (registerConfiguredRules m post).created,
       (registerConfiguredRules m pre).listeners ++ (registerConfiguredRules m post).listeners,
       (registerConfiguredRules m pre).problems
         ++ [{ ruleId := some r,
               message := "Definition for rule '" ++ r ++ "' was not found.",
               line := 1, column := 1, endLine := 1, endColumn := 2,
               severity := 2, nodeType := none }]
         ++ (registerConfiguredRules m post).problems⟩ := by
  have hstep : processConfiguredRule m (registerConfiguredRules m pre) (r, cfg)
      = { registerConfiguredRules m pre with
          problems := (registerConfiguredRules m pre).problems
            ++ [createLintingProblem { ruleId := some r }] } := by
    simp [processConfiguredRule, hsev, hmiss]
  have hfold : registerConfiguredRules m (pre ++ (r, cfg) :: post)
      = List.foldl (processConfiguredRule m)
          (processConfiguredRule m (registerConfiguredRules m pre) (r, cfg)) post := by
    unfold registerConfiguredRules
    rw [List.foldl_append]
    rfl
  rw [hfold, hstep, foldl_processConfiguredRule]
  have hprob : createLintingProblem { ruleId := some r }
      = { ruleId := some r,
          message := "Definition for rule '" ++ r ++ "' was not found.",
          line := 1, column := 1, endLine := 1, endColumn := 2,
          severity := 2, nodeType := none } := rfl
  rw [hprob]

/-- Witness for C7: with no rules registered at all, configuring `"a"` at
severity 2 (followed by another rule) yields exactly the two synthesized
missing-definition problems, in order. -/
theorem runRules_missing_rule_definition_witness :
    getRuleSeverity (ConfigJson.num 2) ≠ JsSeverity.num 0 ∧
    (registerConfiguredRules (fun _ => none)
        ([] ++ ("a", ConfigJson.num 2) :: [("b", ConfigJson.str "warn")])).problems =
      [{ ruleId := some "a", message := "Definition for rule 'a' was not found.",
         line := 1, column := 1, endLine := 1, endColumn := 2,
         severity := 2, nodeType := none },
       { ruleId := some "b", message := "Definition for rule 'b' was not found.",
         line := 1, column := 1, endLine := 1, endColumn := 2,
         severity := 2, nodeType := none }] := by
  have h := runRules_missing_rule_definition (fun _ => none) [] [("b", ConfigJson.str "warn")]
    "a" (ConfigJson.num 2) (by decide) rfl
  refine ⟨by decide, ?_⟩
  rw [h]
  decide

/-! ## C3: the fix/suggestions producer contract in `report` -/

/-- C3: a reported problem carrying a `fix` while the rule's
`meta.fixable` is unset makes the report call throw (failing the verify
pass) with the fixable-contract message; a problem carrying `suggestions`
while `meta.hasSuggestions` is not exactly `true` likewise throws — with
the migration message when only the deprecated `meta.docs.suggestion` flag
is declared; and a rule with `meta.fixable: "code"` reporting a fix
succeeds, the accepted Problem carrying the edit. -/
theorem report_fix_suggestions_contract (meta : Option RuleMeta) (p : Problem) (e : Edit) :
    (p.fix.isSome = true → metaFixable meta = none →
      reportValidate meta p = .error
        "Fixable rules must set the `meta.fixable` property to \"code\" or \"whitespace\".") ∧
    (p.suggestions.isSome = true → metaHasSuggestionsTrue meta = false →
      ∃ msg, reportValidate meta p = .error msg) ∧
    (p.fix = none → p.suggestions.isSome = true → metaHasSuggestionsTrue meta = false →
      metaDeprecatedSuggestion meta = true →
      reportValidate meta p = .error
        "Rules with suggestions must set the `meta.hasSuggestions` property to `true`. `meta.docs.suggestion` is ignored by ESLint.") ∧
    (metaFixable meta = some .code → p.fix = some e → p.suggestions = none →
      reportValidate meta p = .ok p) := by
  refine ⟨?_, ?_, ?_, ?_⟩
  · intro hfix hnofixable
    simp [reportValidate, hfix, hnofixable]
  · intro hsug hnosug
    unfold reportValidate
    have hsnd : (p.suggestions.isSome && !metaHasSuggestionsTrue meta) = true := by
      simp [hsug, hnosug]
    by_cases hfst : (p.fix.isSome && !(metaFixable meta).isSome) = true
    · rw [if_pos hfst]
      exact ⟨_, rfl⟩
    · rw [if_neg hfst, if_pos hsnd]
      by_cases hdep : metaDeprecatedSuggestion meta = true
      · rw [if_pos hdep]
        exact ⟨_, rfl⟩
      · rw [if_neg hdep]
        exact ⟨_, rfl⟩
  · intro hfixnone hsug hnosug hdep
    simp [reportValidate, hfixnone, hsug, hnosug, hdep]
  · intro hfixable hfix hsugnone
    have h1 : (p.fix.isSome && !(metaFixable meta).isSome) = false := by
      simp [hfixable]
    have h2 : (p.suggestions.isSome && !metaHasSuggestionsTrue meta) = false := by
      simp [hsugnone]
    simp only [reportValidate, h1, h2, Bool.false_eq_true, if_false]

/-- Witness for C3 at concrete rules/problems: an undeclared fix throws,
the deprecated suggestion flag still throws (with the migration message),
and a `fixable: "code"` rule's fix is accepted. -/
theorem report_fix_suggestions_contract_witness :
    reportValidate none { fix := some ⟨0, 1, ""⟩ } = .error
        "Fixable rules must set the `meta.fixable` property to \"code\" or \"whitespace\"." ∧
    reportValidate (some { docs := some { suggestion := some true } })
        { suggestions := some [] } = .error
        "Rules with suggestions must set the `meta.hasSuggestions` property to `true`. `meta.docs.suggestion` is ignored by ESLint." ∧
    reportValidate (some { fixable := some .code }) { fix := some ⟨0, 1, ""⟩ } =
      .ok { fix := some ⟨0, 1, ""⟩ } :=
  ⟨(report_fix_suggestions_contract none { fix := some ⟨0, 1, ""⟩ } ⟨0, 1, ""⟩).1 rfl rfl,
   (report_fix_suggestions_contract (some { docs := some { suggestion := some true } })
      { suggestions := some [] } ⟨0, 1, ""⟩).2.2.1 rfl rfl rfl rfl,
   (report_fix_suggestions_contract (some { fixable := some .code })
      { fix := some ⟨0, 1, ""⟩ } ⟨0, 1, ""⟩).2.2.2 rfl rfl rfl⟩

/-! ## C4: unresolved named parser -/

/-- C4 counterexample: at the concrete input `parser: "foo"` (with only
`espree` registered) the single synthetic problem DOES have its `fatal`
flag set — the source writes `fatal: true` — contradicting the claim that
the flag is not set. -/
theorem unresolvedParser_fatal_counterexample :
    verifyParserPhase [DEFAULT_PARSER_NAME] (ParserSetting.nameOf "foo") (fun _ => [])
        = [unknownParserProblem "foo"] ∧
      (unknownParserProblem "foo").fatal = true := by
  constructor
  · decide
  · rfl

/-- C4 (amended): an unregistered string parser name makes verify
short-circuit — the rest of the pass (`restOfVerify`, standing for env
resolution, parsing and rule dispatch) is never consulted — returning
exactly one synthetic problem with the message
`Configured parser '<name>' was not found.`, severity 2, `ruleId: null`,
line 0 / column 0, and the `fatal` flag SET (the source writes
`fatal: true`; the claim's "not set" is wrong on the code). -/
theorem unresolvedParser_short_circuit (parserMap : List String) (name : String)
    (restOfVerify : String → List Problem) (h : parserMap.contains name = false) :
    verifyParserPhase parserMap (.nameOf name) restOfVerify = [unknownParserProblem name] ∧
    (unknownParserProblem name).message
        = "Configured parser '" ++ name ++ "' was not found." ∧
    (unknownParserProblem name).severity = 2 ∧
    (unknownParserProblem name).fatal = true ∧
    (unknownParserProblem name).ruleId = none := by
  refine ⟨?_, rfl, rfl, rfl, rfl⟩
  have hdef : verifyParserPhase parserMap (.nameOf name) restOfVerify
      = if parserMap.contains name = true then restOfVerify name
        else [unknownParserProblem name] := rfl
  rw [hdef, h]
  simp

/-- Witness for C4's amended statement at `parser: "foo"`. -/
theorem unresolvedParser_short_circuit_witness :
    List.contains [DEFAULT_PARSER_NAME] "foo" = false ∧
    verifyParserPhase [DEFAULT_PARSER_NAME] (.nameOf "foo")
        (fun nm => [{ message := nm }]) = [unknownParserProblem "foo"] :=
  ⟨by decide,
   (unresolvedParser_short_circuit [DEFAULT_PARSER_NAME] "foo"
      (fun nm => [{ message := nm }]) (by decide)).1⟩

/-! ## C1/C2: the `verifyAndFix` loop -/

/-- Exhaustive description of the loop variables when `autofixPasses`
exits, by induction on the remaining fuel.  The single hypothesis is the
patcher contract the rest of the source relies on: a round whose messages
are exactly one fatal problem (a parse failure, which carries no edit)
never reports `fixed` (`SourceCodeFixer.applyFixes` applies only edits
attached to messages). -/
theorem autofixPasses_spec (verify : String → List Problem)
    (applyFixes : String → List Problem → FixMode → FixResult) (shouldFix : FixMode)
    (hfatal : ∀ t ms, fatalStop ms = true → (applyFixes t ms shouldFix).fixed = false) :
    ∀ (fuel : Nat) (text : String) (fx : Bool) (trace : List PassRecord)
      (tfin : String) (fxOut : Bool) (frLast : FixResult),
      autofixPasses verify applyFixes shouldFix fuel text fx = (trace, tfin, fxOut, frLast) →
      1 ≤ trace.length ∧ trace.length ≤ fuel + 1 ∧
      (∀ pr ∈ trace, pr.messages = verify pr.textBefore ∧
        pr.result = applyFixes pr.textBefore pr.messages shouldFix) ∧
      (∀ pr ∈ trace.dropLast, pr.result.fixed = true) ∧
      (∀ pr ∈ trace.getLast?.toList, frLast = pr.result ∧
        tfin = (if fatalStop pr.messages = true then pr.textBefore else pr.result.output)) ∧
      fxOut = (fx || trace.any fun pr => pr.result.fixed) := by
  intro fuel
  induction fuel with
  | zero =>
    intro text fx trace tfin fxOut frLast heq
    rw [autofixPasses] at heq
    by_cases hfs : fatalStop (verify text) = true
    · simp only [hfs, if_true] at heq
      obtain ⟨rfl, rfl, rfl, rfl⟩ := Prod.mk.injEq .. ▸ heq
      refine ⟨by simp, by simp, by simp, by simp, by simp [hfs], ?_⟩
      simp [hfatal text (verify text) hfs]
    · simp only [hfs, if_false, Bool.false_eq_true] at heq
      obtain ⟨rfl, rfl, rfl, rfl⟩ := Prod.mk.injEq .. ▸ heq
      refine ⟨by simp, by simp, by simp, by simp, ?_, by simp⟩
      simp [Bool.eq_false_iff.mpr hfs]
  | succ f ih =>
    intro text fx trace tfin fxOut frLast heq
    rw [autofixPasses] at heq
    by_cases hfs : fatalStop (verify text) = true
    · simp only [hfs, if_true] at heq
      obtain ⟨rfl, rfl, rfl, rfl⟩ := Prod.mk.injEq .. ▸ heq
      refine ⟨by simp, by simp, by simp, by simp, by simp [hfs], ?_⟩
      simp [hfatal text (verify text) hfs]
    · by_cases hfx : (applyFixes text (verify text) shouldFix).fixed = true
      · simp only [hfs, if_false, Bool.false_eq_true, hfx, if_true] at heq
        rcases htail : autofixPasses verify applyFixes shouldFix f
            (applyFixes text (verify text) shouldFix).output (fx || true)
          with ⟨ttrace, ttfin, tfx, tfr⟩
        rw [htail] at heq
        obtain ⟨rfl, rfl, rfl, rfl⟩ := Prod.mk.injEq .. ▸ heq
        obtain ⟨h1, h2, h3, h4, h5, h6⟩ := ih _ _ _ _ _ _ htail
        obtain ⟨pr0, hpr0⟩ := List.exists_mem_of_length_pos (by omega : 0 < ttrace.length)
        have hne : ttrace ≠ [] := List.ne_nil_of_length_pos (by omega)
        refine ⟨by simp, by simp; omega, ?_, ?_, ?_, ?_⟩
        · intro pr hpr
          rcases List.mem_cons.mp hpr with rfl | hpr
          · exact ⟨rfl, rfl⟩
          · exact h3 pr hpr
        · intro pr hpr
          rw [List.dropLast_cons_of_ne_nil hne] at hpr
          rcases List.mem_cons.mp hpr with rfl | hpr
          · exact hfx
          · exact h4 pr hpr
        · intro pr hpr
          apply h5
          rcases ttrace with _ | ⟨b, l⟩
          · exact absurd rfl hne
          · rwa [List.getLast?_cons_cons] at hpr
        · simp [h6, hfx, Bool.or_assoc]
      · simp only [hfs, if_false, Bool.false_eq_true, hfx, if_true] at heq
        obtain ⟨rfl, rfl, rfl, rfl⟩ := Prod.mk.injEq .. ▸ heq
        refine ⟨by simp, by simp, by simp, by simp, ?_,
          by simp [Bool.eq_false_iff.mpr hfx]⟩
        simp [Bool.eq_false_iff.mpr hfs]

/-- C1: for every text (and abstract verify/patch collaborators), the
`verifyAndFix` loop runs at most `MAX_AUTOFIX_PASSES = 10` genuine
verify-then-patch rounds, continuing only while the previous round
reported `fixed`; the returned `output` is the latest text (the last
round's patched output, or that round's input text when it broke on a lone
fatal problem); the returned `fixed` is true iff some round applied a fix;
and whenever the final round applied a fix the returned `messages` are
exactly the problems of verifying the returned `output` (one extra
verification). -/
theorem verifyAndFix_loop_contract (verify : String → List Problem)
    (applyFixes : String → List Problem → FixMode → FixResult) (shouldFix : FixMode)
    (text : String)
    (hfatal : ∀ t ms, fatalStop ms = true → (applyFixes t ms shouldFix).fixed = false) :
    1 ≤ (verifyAndFixLoop verify applyFixes shouldFix text).2.length ∧
    (verifyAndFixLoop verify applyFixes shouldFix text).2.length ≤ MAX_AUTOFIX_PASSES ∧
    (∀ pr ∈ (verifyAndFixLoop verify applyFixes shouldFix text).2,
      pr.messages = verify pr.textBefore ∧
      pr.result = applyFixes pr.textBefore pr.messages shouldFix) ∧
    (∀ pr ∈ (verifyAndFixLoop verify applyFixes shouldFix text).2.dropLast,
      pr.result.fixed = true) ∧
    (∀ pr ∈ (verifyAndFixLoop verify applyFixes shouldFix text).2.getLast?.toList,
      (verifyAndFixLoop verify applyFixes shouldFix text).1.output =
        (if fatalStop pr.messages = true then pr.textBefore else pr.result.output)) ∧
    (verifyAndFixLoop verify applyFixes shouldFix text).1.fixed =
      ((verifyAndFixLoop verify applyFixes shouldFix text).2.any fun pr => pr.result.fixed) ∧
    (∀ pr ∈ (verifyAndFixLoop verify applyFixes shouldFix text).2.getLast?.toList,
      pr.result.fixed = true →
      (verifyAndFixLoop verify applyFixes shouldFix text).1.messages =
        verify (verifyAndFixLoop verify applyFixes shouldFix text).1.output) := by
  rcases hrun : autofixPasses verify applyFixes shouldFix (MAX_AUTOFIX_PASSES - 1) text false
    with ⟨trace, tfin, fxOut, frLast⟩
  obtain ⟨h1, h2, h3, h4, h5, h6⟩ :=
    autofixPasses_spec verify applyFixes shouldFix hfatal _ _ _ _ _ _ _ hrun
  have hloop : verifyAndFixLoop verify applyFixes shouldFix text =
      ({ (if frLast.fixed then { frLast with messages := verify tfin } else frLast) with
          fixed := fxOut, output := tfin }, trace) := by
    unfold verifyAndFixLoop
    rw [hrun]
  rw [hloop]
  refine ⟨h1, by simpa [MAX_AUTOFIX_PASSES] using h2, h3, h4, ?_, ?_, ?_⟩
  · intro pr hpr
    exact (h5 pr hpr).2
  · simpa using h6
  · intro pr hpr hfixed
    have hfr : frLast = pr.result := (h5 pr hpr).1
    rw [hfr, hfixed]
    simp

/-- Witness for C1 with a patcher that never fixes anything: the loop runs
exactly one genuine pass and reports no fix. -/
theorem verifyAndFix_loop_contract_witness :
    1 ≤ (verifyAndFixLoop (fun _ => []) (fun t _ _ => ⟨false, [], t⟩)
        (FixMode.bool true) "x").2.length ∧
    (verifyAndFixLoop (fun _ => []) (fun t _ _ => ⟨false, [], t⟩)
        (FixMode.bool true) "x").2.length ≤ MAX_AUTOFIX_PASSES ∧
    (verifyAndFixLoop (fun _ => []) (fun t _ _ => ⟨false, [], t⟩)
        (FixMode.bool true) "x").1.fixed =
      ((verifyAndFixLoop (fun _ => []) (fun t _ _ => ⟨false, [], t⟩)
        (FixMode.bool true) "x").2.any fun pr => pr.result.fixed) := by
  have h := verifyAndFix_loop_contract (fun _ => []) (fun t _ _ => ⟨false, [], t⟩)
    (FixMode.bool true) "x" (fun _ _ _ => rfl)
  exact ⟨h.1, h.2.1, h.2.2.2.2.2.1⟩

/-- C2: when verification of the input yields exactly one fatal problem
(a parse failure), `verifyAndFix` stops after that first pass, returning
that single fatal problem, the unchanged input text, and `fixed: false`.
`hkeep` is the patcher contract: a round that applies nothing returns its
input messages unchanged. -/
theorem verifyAndFix_fatal_first_pass (verify : String → List Problem)
    (applyFixes : String → List Problem → FixMode → FixResult) (shouldFix : FixMode)
    (text : String) (p : Problem)
    (hver : verify text = [p]) (hp : p.fatal = true)
    (hkeep : (applyFixes text [p] shouldFix).fixed = false →
      (applyFixes text [p] shouldFix).messages = [p]) :
    (verifyAndFixLoop verify applyFixes shouldFix text).2.length = 1 ∧
    (verifyAndFixLoop verify applyFixes shouldFix text).1.messages = [p] ∧
    (verifyAndFixLoop verify applyFixes shouldFix text).1.output = text ∧
    (verifyAndFixLoop verify applyFixes shouldFix text).1.fixed = false := by
  have hfs : fatalStop (verify text) = true := by rw [hver]; simpa [fatalStop]
  have hrun : autofixPasses verify applyFixes shouldFix (MAX_AUTOFIX_PASSES - 1) text false
      = ([⟨text, verify text, applyFixes text (verify text) shouldFix⟩], text, false,
          applyFixes text (verify text) shouldFix) := by
    rw [autofixPasses]
    simp [hfs]
  have hloop : verifyAndFixLoop verify applyFixes shouldFix text =
      ({ (if (applyFixes text (verify text) shouldFix).fixed then
            { applyFixes text (verify text) shouldFix with messages := verify text }
          else applyFixes text (verify text) shouldFix) with
          fixed := false, output := text },
        [⟨text, verify text, applyFixes text (verify text) shouldFix⟩]) := by
    unfold verifyAndFixLoop
    rw [hrun]
  rw [hloop]
  refine ⟨rfl, ?_, rfl, rfl⟩
  by_cases hfx : (applyFixes text (verify text) shouldFix).fixed = true
  · rw [hver] at hfx ⊢
    simp [hfx]
  · rw [hver] at hfx ⊢
    simp [Bool.eq_false_iff.mpr hfx, hkeep (Bool.eq_false_iff.mpr hfx)]

/-- Witness for C2 on a concrete parse-broken input. -/
theorem verifyAndFix_fatal_first_pass_witness :
    ((fun _ => [({ fatal := true } : Problem)]) "bad(" = [({ fatal := true } : Problem)]) ∧
    (verifyAndFixLoop (fun _ => [({ fatal := true } : Problem)])
        (fun t ms _ => ⟨false, ms, t⟩) (FixMode.bool true) "bad(").2.length = 1 ∧
    (verifyAndFixLoop (fun _ => [({ fatal := true } : Problem)])
        (fun t ms _ => ⟨false, ms, t⟩) (FixMode.bool true) "bad(").1.messages =
      [({ fatal := true } : Problem)] ∧
    (verifyAndFixLoop (fun _ => [({ fatal := true } : Problem)])
        (fun t ms _ => ⟨false, ms, t⟩) (FixMode.bool true) "bad(").1.output = "bad(" ∧
    (verifyAndFixLoop (fun _ => [({ fatal := true } : Problem)])
        (fun t ms _ => ⟨false, ms, t⟩) (FixMode.bool true) "bad(").1.fixed = false := by
  have h := verifyAndFix_fatal_first_pass (fun _ => [({ fatal := true } : Problem)])
    (fun t ms _ => ⟨false, ms, t⟩) (FixMode.bool true) "bad(" ({ fatal := true } : Problem)
    rfl rfl (fun _ => rfl)
  exact ⟨rfl, h.1, h.2.1, h.2.2.1, h.2.2.2⟩

/-! ## C10: the `fix` option default -/

/-- C10 counterexample: omitting the options argument does NOT behave like
`fix: true` — the first verification pass throws a `TypeError` inside
`normalizeVerifyOptions` (reading `.allowInlineConfig` of `undefined`),
while `fix: true` returns a result. -/
theorem verifyAndFix_omitted_options_counterexample :
    verifyAndFix (fun _ => []) (fun t _ _ => ⟨false, [], t⟩) none "a"
      ≠ verifyAndFix (fun _ => []) (fun t _ _ => ⟨false, [], t⟩)
          (some { fix := some (FixMode.bool true) }) "a" := by
  intro h
  exact Except.noConfusion h

/-- C10 (amended): with an options object present, an absent or undefined
`fix` field behaves exactly like `fix: true` — the default is to fix, and
the patcher receives `shouldFix = true` either way. -/
theorem verifyAndFix_fix_defaults_true (verify : String → List Problem)
    (applyFixes : String → List Problem → FixMode → FixResult) (text : String) :
    verifyAndFix verify applyFixes (some { fix := none }) text
      = verifyAndFix verify applyFixes (some { fix := some (FixMode.bool true) }) text := rfl

/-! ## C8: cursor composition -/

/-- Every cursor has at least one level. -/
theorem cursorDepth_pos {α : Type} (c : TokenCursor α) : 1 ≤ cursorDepth c := by
  cases c <;> simp [cursorDepth]

/-- `takeIdxAsc` yields at most `k` values. -/
theorem takeIdxAsc_length_le {α : Type} (t : List α) :
    ∀ (k : Nat) (i : Int), (takeIdxAsc t k i).length ≤ k := by
  intro k
  induction k with
  | zero => intro i; simp [takeIdxAsc]
  | succ k ih =>
    intro i
    rw [takeIdxAsc]
    rcases getI t i with _ | v
    · exact le_trans (ih (i + 1)) (Nat.le_succ k)
    · simpa using ih (i + 1)

/-- `takeIdxDesc` yields at most `k` values. -/
theorem takeIdxDesc_length_le {α : Type} (t : List α) :
    ∀ (k : Nat) (i : Int), (takeIdxDesc t k i).length ≤ k := by
  intro k
  induction k with
  | zero => intro i; simp [takeIdxDesc]
  | succ k ih =>
    intro i
    rw [takeIdxDesc]
    rcases getI t i with _ | v
    · exact le_trans (ih (i - 1)) (Nat.le_succ k)
    · simpa using ih (i - 1)

/-- The pending value sequence is bounded by the base index range. -/
theorem cursorPending_length_le_size {α : Type} (c : TokenCursor α) :
    (cursorPending c).length ≤ cursorSize c := by
  induction c with
  | forward t i e cu => exact takeIdxAsc_length_le t _ i
  | backward t i e cu => exact takeIdxDesc_length_le t _ i
  | filterCursor p inner cu ih =>
    exact le_trans (List.length_filter_le _ _) ih
  | skipCursor n inner cu ih =>
    simp only [cursorPending, cursorSize, List.length_drop]
    omega
  | limitCursor n inner cu ih =>
    simp only [cursorPending, cursorSize, List.length_take]
    omega

/-- In-range head expansion of the ascending slice. -/
theorem takeIdxAsc_cons {α : Type} (t : List α) (i e : Int)
    (h0 : 0 ≤ i) (hie : i ≤ e) (hlen : e < (t.length : Int)) :
    ∃ v, getI t i = some v ∧
      takeIdxAsc t ((e + 1 - i).toNat) i
        = v :: takeIdxAsc t ((e + 1 - (i + 1)).toNat) (i + 1) := by
  have hidx : i.toNat < t.length := by omega
  have hk : (e + 1 - i).toNat = (e + 1 - (i + 1)).toNat + 1 := by omega
  have hget : getI t i = some (t.get ⟨i.toNat, hidx⟩) := by
    simp [getI, h0, List.getElem?_eq_getElem hidx]
  exact ⟨t.get ⟨i.toNat, hidx⟩, hget, by rw [hk, takeIdxAsc, hget]⟩

/-- Empty ascending slice past the end. -/
theorem takeIdxAsc_nil {α : Type} (t : List α) (i e : Int) (h : e < i) :
    takeIdxAsc t ((e + 1 - i).toNat) i = [] := by
  have hk : (e + 1 - i).toNat = 0 := by omega
  rw [hk, takeIdxAsc]

/-- In-range head expansion of the descending slice. -/
theorem takeIdxDesc_cons {α : Type} (t : List α) (i e : Int)
    (h0 : 0 ≤ e) (hie : e ≤ i) (hlen : i < (t.length : Int)) :
    ∃ v, getI t i = some v ∧
      takeIdxDesc t ((i + 1 - e).toNat) i
        = v :: takeIdxDesc t ((i - 1 + 1 - e).toNat) (i - 1) := by
  have h0' : (0 : Int) ≤ i := by omega
  have hidx : i.toNat < t.length := by omega
  have hk : (i + 1 - e).toNat = (i - 1 + 1 - e).toNat + 1 := by omega
  have hget : getI t i = some (t.get ⟨i.toNat, hidx⟩) := by
    simp [getI, h0', List.getElem?_eq_getElem hidx]
  exact ⟨t.get ⟨i.toNat, hidx⟩, hget, by rw [hk, takeIdxDesc, hget]⟩

/-- Empty descending slice past the start. -/
theorem takeIdxDesc_nil {α : Type} (t : List α) (i e : Int) (h : i < e) :
    takeIdxDesc t ((i + 1 - e).toNat) i = [] := by
  have hk : (i + 1 - e).toNat = 0 := by omega
  rw [hk, takeIdxDesc]

/-- The single-step simulation contract of a cursor's `moveNext`: it
preserves well-formedness and depth, and produces exactly the head of the
pending sequence (failing exactly when the sequence is exhausted). -/
def MoveNextSim (α : Type) (mn : TokenCursor α → Bool × TokenCursor α) (D : Nat) : Prop :=
  ∀ st : TokenCursor α, cursorDepth st = D → cursorWF st →
    cursorWF (mn st).2 ∧ cursorDepth (mn st).2 = D ∧
    (cursorPending st = [] → (mn st).1 = false ∧ cursorPending (mn st).2 = []) ∧
    (∀ v rest, cursorPending st = v :: rest →
      (mn st).1 = true ∧ cursorCurrent (mn st).2 = some v ∧
      cursorPending (mn st).2 = rest)

/-- `filterGo` behaves like the eager `List.filter` over the wrapped
cursor's pending values, given enough fuel. -/
theorem filterGo_sim {α : Type} (mn : TokenCursor α → Bool × TokenCursor α)
    (pred : α → Bool) (D : Nat) (hmn : MoveNextSim α mn D) :
    ∀ (fuel : Nat) (st : TokenCursor α), cursorDepth st = D → cursorWF st →
      (cursorPending st).length < fuel →
      cursorWF (filterGo mn pred fuel st).2 ∧
      cursorDepth (filterGo mn pred fuel st).2 = D ∧
      ((cursorPending st).filter pred = [] → (filterGo mn pred fuel st).1 = false ∧
        cursorPending (filterGo mn pred fuel st).2 = []) ∧
      (∀ v rest, (cursorPending st).filter pred = v :: rest →
        (filterGo mn pred fuel st).1 = true ∧
        cursorCurrent (filterGo mn pred fuel st).2 = some v ∧
        (cursorPending (filterGo mn pred fuel st).2).filter pred = rest) := by
  intro fuel
  induction fuel with
  | zero => intro st _ _ hlt; omega
  | succ fuel ih =>
    intro st hD hwf hlt
    obtain ⟨hwf', hD', hnil, hcons⟩ := hmn st hD hwf
    rcases hp : cursorPending st with _ | ⟨w, ws⟩
    · obtain ⟨hok, hpend'⟩ := hnil hp
      rcases hmnst : mn st with ⟨ok, st'⟩
      have hok' : ok = false := by rw [hmnst] at hok; exact hok
      subst hok'
      rw [hmnst] at hpend' hwf' hD'
      have hstep : filterGo mn pred (fuel + 1) st = (false, st') := by
        rw [filterGo, hmnst]
      rw [hstep]
      refine ⟨hwf', hD', fun _ => ⟨rfl, hpend'⟩, ?_⟩
      intro v rest hveq
      exact absurd hveq (by simp)
    · obtain ⟨hok, hcur', hpend'⟩ := hcons w ws hp
      rcases hmnst : mn st with ⟨ok, st'⟩
      have hok' : ok = true := by rw [hmnst] at hok; exact hok
      subst hok'
      rw [hmnst] at hcur' hpend' hwf' hD'
      have hcv : cursorCurrent st' = some w := hcur'
      by_cases hpw : pred w = true
      · have hstep : filterGo mn pred (fuel + 1) st = (true, st') := by
          simp only [filterGo, hmnst, hcv]
          rw [if_pos hpw]
        rw [hstep, List.filter_cons_of_pos hpw]
        refine ⟨hwf', hD', ?_, ?_⟩
        · intro hfe
          exact absurd hfe (by simp)
        · intro v rest hveq
          obtain ⟨rfl, rfl⟩ := List.cons.injEq .. ▸ hveq
          exact ⟨rfl, hcv, by rw [hpend']⟩
      · have hstep : filterGo mn pred (fuel + 1) st = filterGo mn pred fuel st' := by
          simp only [filterGo, hmnst, hcv]
          rw [if_neg hpw]
        have hlt' : (cursorPending st').length < fuel := by
          have hlen : (cursorPending st).length = ws.length + 1 := by rw [hp]; rfl
          rw [hpend']
          omega
        have hres := ih st' hD' hwf' hlt'
        rw [hstep, List.filter_cons_of_neg (by simpa using hpw), ← hpend']
        exact hres

/-- `skipGo` behaves like the eager `List.drop` over the wrapped cursor's
pending values; when a value is produced the remaining count is zero. -/
theorem skipGo_sim {α : Type} (mn : TokenCursor α → Bool × TokenCursor α)
    (D : Nat) (hmn : MoveNextSim α mn D) :
    ∀ (n : Nat) (st : TokenCursor α), cursorDepth st = D → cursorWF st →
      cursorWF (skipGo mn n st).2.2 ∧
      cursorDepth (skipGo mn n st).2.2 = D ∧
      ((cursorPending st).drop n = [] → (skipGo mn n st).2.1 = false ∧
        cursorPending (skipGo mn n st).2.2 = []) ∧
      (∀ v rest, (cursorPending st).drop n = v :: rest →
        (skipGo mn n st).2.1 = true ∧ (skipGo mn n st).1 = 0 ∧
        cursorCurrent (skipGo mn n st).2.2 = some v ∧
        cursorPending (skipGo mn n st).2.2 = rest) := by
  intro n
  induction n with
  | zero =>
    intro st hD hwf
    obtain ⟨hwf', hD', hnil, hcons⟩ := hmn st hD hwf
    rcases hmnst : mn st with ⟨ok, st'⟩
    rw [hmnst] at hwf' hD' hnil hcons
    have hstep : skipGo mn 0 st = (0, ok, st') := by
      rw [skipGo, hmnst]
    rw [hstep]
    rw [List.drop_zero]
    refine ⟨hwf', hD', hnil, ?_⟩
    intro v rest hveq
    obtain ⟨h1, h2, h3⟩ := hcons v rest hveq
    exact ⟨h1, rfl, h2, h3⟩
  | succ n ih =>
    intro st hD hwf
    obtain ⟨hwf', hD', hnil, hcons⟩ := hmn st hD hwf
    rcases hp : cursorPending st with _ | ⟨w, ws⟩
    · obtain ⟨hok, hpend'⟩ := hnil hp
      rcases hmnst : mn st with ⟨ok, st'⟩
      have hok' : ok = false := by rw [hmnst] at hok; exact hok
      subst hok'
      rw [hmnst] at hpend' hwf' hD'
      have hstep : skipGo mn (n + 1) st = (n, false, st') := by
        rw [skipGo, hmnst]
      rw [hstep]
      refine ⟨hwf', hD', fun _ => ⟨rfl, hpend'⟩, ?_⟩
      intro v rest hveq
      exact absurd hveq (by simp)
    · obtain ⟨hok, hcur', hpend'⟩ := hcons w ws hp
      rcases hmnst : mn st with ⟨ok, st'⟩
      have hok' : ok = true := by rw [hmnst] at hok; exact hok
      subst hok'
      rw [hmnst] at hcur' hpend' hwf' hD'
      have hstep : skipGo mn (n + 1) st = skipGo mn n st' := by
        rw [skipGo, hmnst]
      have hres := ih st' hD' hwf'
      rw [hstep, List.drop_succ_cons, ← hpend']
      exact hres

/-- The simulation theorem for `moveNextD`: with fuel covering the
decorator depth, one `moveNext` call produces exactly the head of the
cursor's pending sequence and leaves the tail pending. -/
theorem moveNextD_sim {α : Type} :
    ∀ (d : Nat) (c : TokenCursor α), cursorDepth c ≤ d → cursorWF c →
      cursorWF (moveNextD d c).2 ∧ cursorDepth (moveNextD d c).2 = cursorDepth c ∧
      (cursorPending c = [] → (moveNextD d c).1 = false ∧
        cursorPending (moveNextD d c).2 = []) ∧
      (∀ v rest, cursorPending c = v :: rest →
        (moveNextD d c).1 = true ∧ cursorCurrent (moveNextD d c).2 = some v ∧
        cursorPending (moveNextD d c).2 = rest) := by
  intro d
  induction d with
  | zero =>
    intro c hd
    exact absurd (le_trans (cursorDepth_pos c) hd) (by omega)
  | succ d ih =>
    intro c hd hwf
    cases c with
    | forward t i e cu =>
      obtain ⟨h0, hlen⟩ := hwf
      by_cases hie : i ≤ e
      · obtain ⟨v, hget, htail⟩ := takeIdxAsc_cons t i e h0 hie hlen
        have hpend : cursorPending (TokenCursor.forward t i e cu)
            = v :: takeIdxAsc t ((e + 1 - (i + 1)).toNat) (i + 1) := htail
        have hstep : moveNextD (d + 1) (TokenCursor.forward t i e cu)
            = (true, .forward t (i + 1) e (getI t i)) := by
          simp only [moveNextD]
          rw [if_pos hie]
        rw [hstep, hpend]
        refine ⟨⟨by omega, hlen⟩, rfl, ?_, ?_⟩
        · intro hnil
          exact absurd hnil (by simp)
        · intro w rest hveq
          obtain ⟨rfl, rfl⟩ := List.cons.injEq .. ▸ hveq
          exact ⟨rfl, hget, rfl⟩
      · have hstep : moveNextD (d + 1) (TokenCursor.forward t i e cu)
            = (false, .forward t i e cu) := by
          simp only [moveNextD]
          rw [if_neg hie]
        have hpend : cursorPending (TokenCursor.forward t i e cu) = [] :=
          takeIdxAsc_nil t i e (by omega)
        rw [hstep, hpend]
        exact ⟨⟨h0, hlen⟩, rfl, fun _ => ⟨rfl, rfl⟩,
          fun v rest hveq => absurd hveq (by simp)⟩
    | backward t i e cu =>
      obtain ⟨h0, hlen⟩ := hwf
      by_cases hie : e ≤ i
      · obtain ⟨v, hget, htail⟩ := takeIdxDesc_cons t i e h0 hie hlen
        have hpend : cursorPending (TokenCursor.backward t i e cu)
            = v :: takeIdxDesc t ((i - 1 + 1 - e).toNat) (i - 1) := htail
        have hstep : moveNextD (d + 1) (TokenCursor.backward t i e cu)
            = (true, .backward t (i - 1) e (getI t i)) := by
          simp only [moveNextD]
          rw [if_pos hie]
        rw [hstep, hpend]
        refine ⟨⟨h0, by omega⟩, rfl, ?_, ?_⟩
        · intro hnil
          exact absurd hnil (by simp)
        · intro w rest hveq
          obtain ⟨rfl, rfl⟩ := List.cons.injEq .. ▸ hveq
          exact ⟨rfl, hget, rfl⟩
      · have hstep : moveNextD (d + 1) (TokenCursor.backward t i e cu)
            = (false, .backward t i e cu) := by
          simp only [moveNextD]
          rw [if_neg hie]
        have hpend : cursorPending (TokenCursor.backward t i e cu) = [] :=
          takeIdxDesc_nil t i e (by omega)
        rw [hstep, hpend]
        exact ⟨⟨h0, hlen⟩, rfl, fun _ => ⟨rfl, rfl⟩,
          fun v rest hveq => absurd hveq (by simp)⟩
    | filterCursor pred inner cu =>
      have hdi : cursorDepth inner ≤ d := by
        simp only [cursorDepth] at hd
        omega
      have hmn : MoveNextSim α (moveNextD d) (cursorDepth inner) := by
        intro st hDst hwfst
        have hres := ih st (by omega) hwfst
        exact ⟨hres.1, by rw [hres.2.1, hDst], hres.2.2.1, hres.2.2.2⟩
      obtain ⟨hwf', hD', hnil, hcons⟩ := filterGo_sim (moveNextD d) pred
        (cursorDepth inner) hmn (cursorSize inner + 1) inner rfl hwf
        (Nat.lt_succ_of_le (cursorPending_length_le_size inner))
      rcases hgo : filterGo (moveNextD d) pred (cursorSize inner + 1) inner with ⟨ok, inner'⟩
      rw [hgo] at hwf' hD' hnil hcons
      rcases hfp : (cursorPending inner).filter pred with _ | ⟨v, vtail⟩
      · obtain ⟨hok, hpend'⟩ := hnil hfp
        have hok' : ok = false := hok
        subst hok'
        have hstep : moveNextD (d + 1) (TokenCursor.filterCursor pred inner cu)
            = (false, .filterCursor pred inner' cu) := by
          simp only [moveNextD, hgo]
        rw [hstep]
        refine ⟨hwf', by simp only [cursorDepth]; rw [show cursorDepth inner' = cursorDepth inner from hD'], ?_, ?_⟩
        · intro hnilc
          exact ⟨rfl, by simp only [cursorPending, hpend', List.filter_nil]⟩
        · intro w rest hveq
          have : (cursorPending inner).filter pred = w :: rest := hveq
          rw [hfp] at this
          exact absurd this (by simp)
      · obtain ⟨hok, hcur', hfp'⟩ := hcons v vtail hfp
        have hok' : ok = true := hok
        subst hok'
        have hcv : cursorCurrent inner' = some v := hcur'
        have hstep : moveNextD (d + 1) (TokenCursor.filterCursor pred inner cu)
            = (true, .filterCursor pred inner' (cursorCurrent inner')) := by
          simp only [moveNextD, hgo]
        rw [hstep]
        refine ⟨hwf', by simp only [cursorDepth]; rw [show cursorDepth inner' = cursorDepth inner from hD'], ?_, ?_⟩
        · intro hnilc
          have : (cursorPending inner).filter pred = [] := hnilc
          rw [hfp] at this
          exact absurd this (by simp)
        · intro w rest hveq
          have hvq : (cursorPending inner).filter pred = w :: rest := hveq
          rw [hfp] at hvq
          obtain ⟨rfl, rfl⟩ := List.cons.injEq .. ▸ hvq
          exact ⟨rfl, hcv, hfp'⟩
    | skipCursor n inner cu =>
      have hdi : cursorDepth inner ≤ d := by
        simp only [cursorDepth] at hd
        omega
      have hmn : MoveNextSim α (moveNextD d) (cursorDepth inner) := by
        intro st hDst hwfst
        have hres := ih st (by omega) hwfst
        exact ⟨hres.1, by rw [hres.2.1, hDst], hres.2.2.1, hres.2.2.2⟩
      obtain ⟨hwf', hD', hnil, hcons⟩ := skipGo_sim (moveNextD d)
        (cursorDepth inner) hmn n inner rfl hwf
      rcases hgo : skipGo (moveNextD d) n inner with ⟨n', ok, inner'⟩
      rw [hgo] at hwf' hD' hnil hcons
      have hstep : moveNextD (d + 1) (TokenCursor.skipCursor n inner cu)
          = (ok, .skipCursor n' inner' (cursorCurrent inner')) := by
        simp only [moveNextD, hgo]
      rw [hstep]
      rcases hdp : (cursorPending inner).drop n with _ | ⟨v, vtail⟩
      · obtain ⟨hok, hpend'⟩ := hnil hdp
        have hok' : ok = false := hok
        subst hok'
        refine ⟨hwf', by simp only [cursorDepth]; rw [show cursorDepth inner' = cursorDepth inner from hD'], ?_, ?_⟩
        · intro hnilc
          exact ⟨rfl, by simp only [cursorPending, hpend', List.drop_nil]⟩
        · intro w rest hveq
          have : (cursorPending inner).drop n = w :: rest := hveq
          rw [hdp] at this
          exact absurd this (by simp)
      · obtain ⟨hok, hn0, hcur', hpend'⟩ := hcons v vtail hdp
        have hok' : ok = true := hok
        have hn0' : n' = 0 := hn0
        subst hok'
        subst hn0'
        refine ⟨hwf', by simp only [cursorDepth]; rw [show cursorDepth inner' = cursorDepth inner from hD'], ?_, ?_⟩
        · intro hnilc
          have : (cursorPending inner).drop n = [] := hnilc
          rw [hdp] at this
          exact absurd this (by simp)
        · intro w rest hveq
          have hvq : (cursorPending inner).drop n = w :: rest := hveq
          rw [hdp] at hvq
          obtain ⟨rfl, rfl⟩ := List.cons.injEq .. ▸ hvq
          refine ⟨rfl, hcur', ?_⟩
          simp only [cursorPending, hpend', List.drop_zero]
    | limitCursor n inner cu =>
      have hdi : cursorDepth inner ≤ d := by
        simp only [cursorDepth] at hd
        omega
      cases n with
      | zero =>
        have hstep : moveNextD (d + 1) (TokenCursor.limitCursor 0 inner cu)
            = (false, .limitCursor 0 inner cu) := by
          simp only [moveNextD]
        have hpend : cursorPending (TokenCursor.limitCursor 0 inner cu) = [] := by
          simp only [cursorPending, List.take_zero]
        rw [hstep, hpend]
        exact ⟨hwf, rfl, fun _ => ⟨rfl, hpend⟩, fun v rest hveq => absurd hveq (by simp)⟩
      | succ m =>
        obtain ⟨hwf', hD', hnil, hcons⟩ := ih inner hdi hwf
        rcases hmv : moveNextD d inner with ⟨ok, inner'⟩
        rw [hmv] at hwf' hD' hnil hcons
        have hstep : moveNextD (d + 1) (TokenCursor.limitCursor (m + 1) inner cu)
            = (ok, .limitCursor m inner' (cursorCurrent inner')) := by
          simp only [moveNextD, hmv]
        rw [hstep]
        rcases hp : cursorPending inner with _ | ⟨w, ws⟩
        · obtain ⟨hok, hpend'⟩ := hnil hp
          subst hok
          refine ⟨hwf', by simp only [cursorDepth]; rw [show cursorDepth inner' = cursorDepth inner from hD'], ?_, ?_⟩
          · intro hnilc
            exact ⟨rfl, by simp only [cursorPending, hpend', List.take_nil]⟩
          · intro w rest hveq
            have : (cursorPending inner).take (m + 1) = w :: rest := hveq
            rw [hp] at this
            exact absurd this (by simp)
        · obtain ⟨hok, hcur', hpend'⟩ := hcons w ws hp
          subst hok
          refine ⟨hwf', by simp only [cursorDepth]; rw [show cursorDepth inner' = cursorDepth inner from hD'], ?_, ?_⟩
          · intro hnilc
            have : (cursorPending inner).take (m + 1) = [] := hnilc
            rw [hp] at this
            exact absurd this (by simp)
          · intro w' rest hveq
            have hvq : (cursorPending inner).take (m + 1) = w' :: rest := hveq
            rw [hp, List.take_succ_cons] at hvq
            obtain ⟨rfl, rfl⟩ := List.cons.injEq .. ▸ hvq
            refine ⟨rfl, hcur', ?_⟩
            simp only [cursorPending, hpend']

/-- Draining a well-formed cursor with enough fuel yields exactly its
pending value sequence. -/
theorem collectFuel_pending {α : Type} :
    ∀ (fuel : Nat) (c : TokenCursor α), cursorWF c → (cursorPending c).length < fuel →
      collectFuel fuel c = cursorPending c := by
  intro fuel
  induction fuel with
  | zero => intro c _ h; omega
  | succ fuel ih =>
    intro c hwf hlt
    obtain ⟨hwf', hD', hnil, hcons⟩ := moveNextD_sim (cursorDepth c) c le_rfl hwf
    rcases hp : cursorPending c with _ | ⟨v, rest⟩
    · obtain ⟨hok, -⟩ := hnil hp
      rcases hmv : cursorMoveNext c with ⟨ok, c'⟩
      have hok' : ok = false := by
        have h1 : (cursorMoveNext c).1 = false := hok
        rw [hmv] at h1
        exact h1
      subst hok'
      have hstep : collectFuel (fuel + 1) c = [] := by
        simp only [collectFuel, hmv]
      rw [hstep]
    · obtain ⟨hok, hcur', hpend'⟩ := hcons v rest hp
      rcases hmv : cursorMoveNext c with ⟨ok, c'⟩
      have hok' : ok = true := by
        have h1 : (cursorMoveNext c).1 = true := hok
        rw [hmv] at h1
        exact h1
      subst hok'
      have hcv : cursorCurrent c' = some v := by
        have h1 : cursorCurrent (cursorMoveNext c).2 = some v := hcur'
        rw [hmv] at h1
        exact h1
      have hwc : cursorWF c' := by
        have h1 : cursorWF (cursorMoveNext c).2 := hwf'
        rw [hmv] at h1
        exact h1
      have hpc : cursorPending c' = rest := by
        have h1 : cursorPending (cursorMoveNext c).2 = rest := hpend'
        rw [hmv] at h1
        exact h1
      have hltc : (cursorPending c').length < fuel := by
        have hlen : (cursorPending c).length = rest.length + 1 := by rw [hp]; rfl
        rw [hpc]
        omega
      have hstep : collectFuel (fuel + 1) c = v :: collectFuel fuel c' := by
        simp only [collectFuel, hmv, hcv]
      rw [hstep, ih c' hwc hltc, hpc]

/-- A well-formed cursor's observable value sequence is its pending
sequence. -/
theorem cursorToList_pending {α : Type} (c : TokenCursor α) (hwf : cursorWF c) :
    cursorToList c = cursorPending c :=
  collectFuel_pending _ c hwf (Nat.lt_succ_of_le (cursorPending_length_le_size c))

/-- C8: for every token/comment sequence, filter predicate, skip count
`k ≥ 1` and limit count `n ≥ 0`, the cursor built by
`CursorFactory#createCursor` (base cursor decorated by Filter, then Skip,
then Limit) yields exactly the value sequence obtained by eagerly taking
the base cursor's full output, filtering it, dropping the first `k`
elements and taking the first `n` — for both the forward and the backward
base cursor (`isBackward` quantified), token-only or token+comment
(`includeComments` quantified) — and a limit of `n = 0` yields the empty
sequence. -/
theorem createCursor_composition {α : Type} (isBackward : Bool)
    (seqTokens seqWithComments : List α) (firstIndex lastIndex : Int)
    (includeComments : Bool) (pred : α → Bool) (k n : Int)
    (hfirst : 0 ≤ firstIndex)
    (hlast : lastIndex < (((if includeComments then seqWithComments else seqTokens).length : Nat) : Int))
    (hk : 1 ≤ k) (hn : 0 ≤ n) :
    cursorToList (createCursor isBackward seqTokens seqWithComments firstIndex lastIndex
        includeComments (some pred) (some k) (some n))
      = (((cursorToList (createCursor isBackward seqTokens seqWithComments firstIndex lastIndex
            includeComments none none none)).filter pred).drop k.toNat).take n.toNat ∧
    (n = 0 → cursorToList (createCursor isBackward seqTokens seqWithComments firstIndex lastIndex
        includeComments (some pred) (some k) (some n)) = []) := by
  have hbase : cursorWF (createBaseCursor isBackward seqTokens seqWithComments
      firstIndex lastIndex includeComments) := by
    cases isBackward <;> simp only [createBaseCursor, if_true, if_false,
      Bool.false_eq_true, cursorWF] <;> exact ⟨hfirst, hlast⟩
  have hdec : createCursor isBackward seqTokens seqWithComments firstIndex lastIndex
      includeComments (some pred) (some k) (some n)
      = .limitCursor n.toNat (.skipCursor k.toNat (.filterCursor pred
          (createBaseCursor isBackward seqTokens seqWithComments firstIndex lastIndex
            includeComments) none) none) none := by
    simp only [createCursor]
    rw [if_pos hk, if_pos hn]
  have hplain : createCursor isBackward seqTokens seqWithComments firstIndex lastIndex
      includeComments none none none
      = createBaseCursor isBackward seqTokens seqWithComments firstIndex lastIndex
          includeComments := rfl
  have hmain : cursorToList (createCursor isBackward seqTokens seqWithComments firstIndex
      lastIndex includeComments (some pred) (some k) (some n))
      = (((cursorToList (createCursor isBackward seqTokens seqWithComments firstIndex
            lastIndex includeComments none none none)).filter pred).drop k.toNat).take
          n.toNat := by
    rw [hdec, hplain, cursorToList_pending _ hbase, cursorToList_pending _ (show cursorWF
      (TokenCursor.limitCursor n.toNat (.skipCursor k.toNat (.filterCursor pred
        (createBaseCursor isBackward seqTokens seqWithComments firstIndex lastIndex
          includeComments) none) none) none) from hbase)]
    rfl
  refine ⟨hmain, ?_⟩
  intro h0
  subst h0
  rw [hmain]
  rfl

/-- Witness for C8 on a concrete token sequence (forward direction,
filter = multiples of 20, skip 1, limit 2), with the concrete value
sequence checked by evaluation. -/
theorem createCursor_composition_witness :
    cursorToList (createCursor false [10, 20, 30, 40, 50] ([] : List Nat) 0 4 false
        (some fun v => v % 20 == 0) (some 1) (some 2))
      = (((cursorToList (createCursor false [10, 20, 30, 40, 50] ([] : List Nat) 0 4 false
            none none none)).filter fun v => v % 20 == 0).drop (1 : Int).toNat).take
          (2 : Int).toNat ∧
    cursorToList (createCursor false [10, 20, 30, 40, 50] ([] : List Nat) 0 4 false
        (some fun v => v % 20 == 0) (some 1) (some 2)) = [40] := by
  refine ⟨(createCursor_composition false [10, 20, 30, 40, 50] ([] : List Nat) 0 4 false
    (fun v => v % 20 == 0) 1 2 (by decide) (by decide) (by decide) (by decide)).1, ?_⟩
  decide

/-! ## C9: Traverser break() halts the traversal -/

/-- Appending one event whose mark equals the new `broken` flag, starting
from an unbroken state, preserves the trace invariant. -/
theorem traceOk_append_event {υ : Type} (st : TravState υ) (hok : traceOk st)
    (hb : st.broken = false) (ent : Bool) (n : AstNode) (b : Bool) (u : υ) :
    traceOk (⟨b, st.events ++ [⟨ent, n, b⟩], u⟩ : TravState υ) := by
  rcases hok with ⟨-, hflat⟩ | ⟨hb', -⟩
  · cases b with
    | false =>
      left
      refine ⟨rfl, ?_⟩
      intro ev hev
      rcases List.mem_append.mp hev with h1 | h1
      · exact hflat ev h1
      · rw [List.mem_singleton.mp h1]
    | true =>
      right
      exact ⟨rfl, st.events, ⟨ent, n, true⟩, rfl, rfl, hflat⟩
  · rw [hb'] at hb
    exact absurd hb (by simp)

theorem trav_traceOk {υ : Type} (vk : String → Option (List String))
    (enter : υ → AstNode → Option AstNode → υ × Bool × Bool)
    (leave : υ → AstNode → Option AstNode → υ × Bool) :
    (∀ (node : Option AstNode) (parent : Option AstNode) (st : TravState υ),
      (traceOk st → st.broken = false → traceOk (travNode vk enter leave node parent st))) ∧
    (∀ (n : AstNode) (keys : List String) (st : TravState υ),
      (traceOk st → traceOk (travKeys vk enter leave n keys st))) ∧
    (∀ (xs : List AstChild) (n : AstNode) (st : TravState υ),
      (traceOk st → traceOk (travArr vk enter leave xs n st))) := by
  apply travNode.mutual_induct
  case vk => exact vk
  case enter => exact enter
  case leave => exact leave
  case case1 =>
    intro x st hok hb
    simpa only [travNode] using hok
  case case2 =>
    intro n parent st e broken1 st1 st2 h2 hIH hok hb
    have hst1 : traceOk st1 := by
      show traceOk ⟨st.broken || e.2.2, st.events ++ [⟨true, n, st.broken || e.2.2⟩], e.1⟩
      rw [hb]
      simpa using traceOk_append_event st hok hb true n e.2.2 e.1
    have hst2 : traceOk st2 := by
      show traceOk (if (!e.2.1 && !st1.broken) = true then
        travKeys vk enter leave n (getVisitorKeysM vk n) st1 else st1)
      by_cases hcnd : (!e.2.1 && !st1.broken) = true
      · rw [if_pos hcnd]
        exact hIH hst1
      · rw [if_neg hcnd]
        exact hst1
    have hb2 : st2.broken = false := by
      have := h2
      simpa using this
    have heq : travNode vk enter leave (some n) parent st =
        ⟨st2.broken || (leave st2.user n parent).2,
         st2.events ++ [⟨false, n, st2.broken || (leave st2.user n parent).2⟩],
         (leave st2.user n parent).1⟩ := by
      rw [travNode]
      show (if (!st2.broken) = true then _ else st2) = _
      rw [if_pos h2]
      rfl
    rw [heq]
    exact traceOk_append_event st2 hst2 hb2 false n _ _
  case case3 =>
    intro n parent st e broken1 st1 st2 h2 hIH hok hb
    have hst1 : traceOk st1 := by
      show traceOk ⟨st.broken || e.2.2, st.events ++ [⟨true, n, st.broken || e.2.2⟩], e.1⟩
      rw [hb]
      simpa using traceOk_append_event st hok hb true n e.2.2 e.1
    have hst2 : traceOk st2 := by
      show traceOk (if (!e.2.1 && !st1.broken) = true then
        travKeys vk enter leave n (getVisitorKeysM vk n) st1 else st1)
      by_cases hcnd : (!e.2.1 && !st1.broken) = true
      · rw [if_pos hcnd]
        exact hIH hst1
      · rw [if_neg hcnd]
        exact hst1
    have heq : travNode vk enter leave (some n) parent st = st2 := by
      rw [travNode]
      show (if (!st2.broken) = true then _ else st2) = _
      rw [if_neg h2]
    rw [heq]
    exact hst2
  case case4 =>
    intro x st hok
    simpa only [travKeys] using hok
  case case5 =>
    intro n key rest st hbrk hok
    have heq : travKeys vk enter leave n (key :: rest) st = st := by
      rw [travKeys]
      rw [if_pos hbrk]
    rw [heq]
    exact hok
  case case6 =>
    intro n key rest st hbrk st' hone hmany hIH hok
    have hb : st.broken = false := by simpa using hbrk
    have hst' : traceOk st' := by
      show traceOk (match hc : lookupChild n key with
        | some (AstChild.one c) => travNode vk enter leave (some c) (some n) st
        | some (AstChild.many xs) => travArr vk enter leave xs n st
        | some AstChild.nonNode => st
        | none => st)
      split
      · next c hc => exact hone c hc hok hb
      · next xs hc => exact hmany xs hc hok
      · exact hok
      · exact hok
    have heq : travKeys vk enter leave n (key :: rest) st
        = travKeys vk enter leave n rest st' := by
      rw [travKeys]
      rw [if_neg hbrk]
    rw [heq]
    exact hIH hst'
  case case7 =>
    intro x st hok
    simpa only [travArr] using hok
  case case8 =>
    intro x rest n st hbrk hok
    rcases x with _ | c | xs
    · rw [travArr, if_pos hbrk]
      · exact hok
      · intro c h
        exact AstChild.noConfusion h
    · rw [travArr, if_pos hbrk]
      exact hok
    · rw [travArr, if_pos hbrk]
      · exact hok
      · intro c h
        exact AstChild.noConfusion h
  case case9 =>
    intro x rest n st hbrk st' hone hIH hok
    have hb : st.broken = false := by simpa using hbrk
    rcases x with _ | c | xs
    · rw [travArr, if_neg hbrk]
      · exact hIH hok
      · intro c h
        exact AstChild.noConfusion h
    · have hone2 : traceOk st → st.broken = false →
          traceOk (travNode vk enter leave (some c) (some n) st) := hone
      rw [travArr, if_neg hbrk]
      exact hIH (hone2 hok hb)
    · rw [travArr, if_neg hbrk]
      · exact hIH hok
      · intro c h
        exact AstChild.noConfusion h

theorem traverse_traceOk {υ : Type} (vk : String → Option (List String))
    (enter : υ → AstNode → Option AstNode → υ × Bool × Bool)
    (leave : υ → AstNode → Option AstNode → υ × Bool)
    (root : AstNode) (u0 : υ) :
    traceOk (traverse vk enter leave root u0) :=
  (trav_traceOk vk enter leave).1 (some root) none ⟨false, [], u0⟩
    (Or.inl ⟨rfl, fun ev hev => absurd hev (List.not_mem_nil ev)⟩) rfl

theorem marked_event_is_last {υ : Type} {st : TravState υ} (hok : traceOk st)
    {pre : List TravEvent} {ev : TravEvent} {ys : List TravEvent}
    (h : st.events = pre ++ ev :: ys) (hm : ev.brokenAfter = true) : ys = [] := by
  rcases hok with ⟨-, hflat⟩ | ⟨-, A, e, hE, -, hflatA⟩
  · have hmem : ev ∈ st.events := by
      rw [h]
      exact List.mem_append.mpr (Or.inr (List.mem_cons_self ev ys))
    rw [hflat ev hmem] at hm
    exact absurd hm (by simp)
  · rcases List.eq_nil_or_concat ys with hys | ⟨ys2, y, rfl⟩
    · exact hys
    · have hcat : (pre ++ ev :: ys2) ++ [y] = A ++ [e] := by
        rw [← hE, h]
        simp
      have hAB := List.append_inj' hcat rfl
      have hmemA : ev ∈ A := by
        rw [← hAB.1]
        exact List.mem_append.mpr (Or.inr (List.mem_cons_self ev ys2))
      rw [hflatA ev hmemA] at hm
      exact absurd hm (by simp)

/-- C9: for every tree, visitor-keys table and enter/leave callbacks, if
`break()` is invoked during some enter call (the event recorded for that
enter carries `brokenAfter = true`), then that event is the last one of the
whole traversal: no further enter or leave call occurs for any node — in
particular `leave` never runs for the broken node or for its still-open
ancestors. -/
theorem traverse_break_in_enter_halts {υ : Type}
    (vk : String → Option (List String))
    (enter : υ → AstNode → Option AstNode → υ × Bool × Bool)
    (leave : υ → AstNode → Option AstNode → υ × Bool)
    (root : AstNode) (u0 : υ) (pre ys : List TravEvent) (n : AstNode)
    (h : (traverse vk enter leave root u0).events = pre ++ ⟨true, n, true⟩ :: ys) :
    ys = [] :=
  marked_event_is_last (traverse_traceOk vk enter leave root u0) h rfl

theorem traverse_break_in_enter_halts_witness :
    (traverse (fun _ => none)
        (fun (u : Nat) nd _ => (u + 1, false, astNodeType nd == "Child"))
        (fun u _ _ => (u, false))
        (AstNode.mk "Root" [("body", AstChild.one (AstNode.mk "Child" []))]) 0).events
      = [⟨true, AstNode.mk "Root" [("body", AstChild.one (AstNode.mk "Child" []))], false⟩]
        ++ ⟨true, AstNode.mk "Child" [], true⟩ :: []
    ∧ ([] : List TravEvent) = [] := by
  have h : (traverse (fun _ => none)
        (fun (u : Nat) nd _ => (u + 1, false, astNodeType nd == "Child"))
        (fun u _ _ => (u, false))
        (AstNode.mk "Root" [("body", AstChild.one (AstNode.mk "Child" []))]) 0).events
      = [⟨true, AstNode.mk "Root" [("body", AstChild.one (AstNode.mk "Child" []))], false⟩]
        ++ ⟨true, AstNode.mk "Child" [], true⟩ :: [] := by
    simp [traverse, travNode, travKeys, travArr, getVisitorKeysM, lookupChild,
      astChildren, astNodeType, List.find?, Option.map, String.reduceBEq]
  exact ⟨h, traverse_break_in_enter_halts _ _ _ _ _ _ _ _ h⟩

end ESLint
